import Mathlib

/-!
Shallow embedding of the jsonstream repository (src/decode.go), a streaming pull-based
tokenizer for a JSON-like byte stream.

Modelling conventions:
* Bytes are `Nat` values (always < 256 in practice; all comparisons in the
  source are order/equality comparisons that the embedding mirrors directly).
* The Go `io.Reader` source together with the decoder's internal chunk
  buffer (`buffer`/`offset`, refilled 1024 bytes at a time in `next`) is
  modelled as the list of bytes the source will deliver followed by a
  terminal condition: clean end-of-stream (`io.EOF`, also produced by a
  read that returns zero bytes) or an arbitrary I/O error.  The chunked
  refill is not observable through `next`, which hands out one byte at a
  time in either case.
* `preparedByte`/`preparedValid` (the one-byte pushback slot) become an
  `Option Nat` field.
* The decoder's `line`/`column` fields are only ever written inside
  `skipWhitespace` and only read when constructing a scan error
  (`Decoder.err`), so every operation below `skipWhitespace` takes the
  position as a read-only argument; `Token`/`StringReader` thread it.
* Loops (`skipWhitespace`, the `readNumber` scan loop, `stringReader.Read`
  and its full drain) are written with an explicit fuel argument so that
  all definitions compute by `decide`/`rfl`.  The fuel passed by the
  wrappers strictly exceeds a weight measure that every iteration
  decreases, so the zero-fuel branch is unreachable (proved by the
  fuel-irrelevance lemmas below).
* Go errors are modelled as an inductive: `io.EOF`, an opaque source I/O
  error, `Decoder.err`-wrapped scan errors (line, column, message),
  `ErrNotString`, and the `"unable to read string"` wrapper produced by
  `readString`.
-/

deriving instance DecidableEq for Except

namespace Jsonstream

/-- The distinct decode-error messages produced in decode.go (the dynamic
byte/position data is carried separately). -/
inductive Msg where
  | badInputByte (b : Nat)
  | unexpectedEOFLiteral
  | unexpectedInputLiteral (b : Nat)
  | numberTooLong
  | failedScanFloat
  | failedScanInt
  | unexpectedEOFString
  | badEscapeChar (b : Nat)
  | badUnicodeEscapeChar (b : Nat)
  | incompleteSurrogatePair
  | expectedBackslashSurrogate (b : Nat)
  | expectedUSurrogate (b : Nat)
deriving DecidableEq, Repr

/-- Go error values reachable from decode.go.  `eof` is `io.EOF` (the
distinguished clean end-of-stream value), `ioError e` an arbitrary non-EOF
failure of the underlying source, `scanError` the position-wrapped decode
error built by `Decoder.err`, `notString` the typed `ErrNotString`, and
`unableToReadString` the wrapper added by `readString`. -/
inductive GoError where
  | eof
  | ioError (e : Nat)
  | scanError (line column : Nat) (m : Msg)
  | notString
  | unableToReadString (inner : GoError)
deriving DecidableEq, Repr

/-- Terminal condition of the byte source once its bytes run out. -/
inductive Term where
  | eof
  | ioError (e : Nat)
deriving DecidableEq, Repr

/-- The byte-delivering part of the Go `Decoder`: pushback slot
(`preparedByte`/`preparedValid`), undelivered source bytes
(source + chunk buffer + offset), and the source's terminal condition. -/
structure ByteState where
  prepared : Option Nat
  input : List Nat
  term : Term
deriving DecidableEq, Repr

/-- Line/column diagnostics (`Decoder.line`, `Decoder.column`). -/
structure Pos where
  line : Nat
  column : Nat
deriving DecidableEq, Repr

/-- `Decoder.err`: wraps a decode error with the current position. -/
def errAt (p : Pos) (m : Msg) : GoError := .scanError p.line p.column m

/-- `Decoder.next`: drain the pushback slot, else the next buffered/source
byte, else surface the terminal condition (a read with `n == 0` and no
error is io.EOF; a non-EOF read error propagates verbatim). -/
def next (s : ByteState) : Except GoError Nat × ByteState :=
  match s.prepared with
  | some b => (.ok b, { s with prepared := none })
  | none =>
    match s.input with
    | b :: rest => (.ok b, { s with input := rest })
    | [] =>
      match s.term with
      | .eof => (.error .eof, s)
      | .ioError e => (.error (.ioError e), s)

/-- `Decoder.undo`: push one byte back. -/
def undo (b : Nat) (s : ByteState) : ByteState := { s with prepared := some b }

/-- Weight of a byte state: an upper bound on how many times `next` can
succeed.  Every loop iteration that consumes a byte decreases it. -/
def weight (s : ByteState) : Nat :=
  s.input.length + (match s.prepared with | some _ => 1 | none => 0)

/-- Token values (`Token`, `Delim`, bool / nil / int64 / float64 / string).
The float payload is the exact rational value of the decimal literal; see
`parseFloat`. -/
inductive Token where
  | delim (c : Nat)
  | boolean (b : Bool)
  | null
  | int (i : Int)
  | float (q : ℚ)
  | str (bytes : List Nat)
deriving DecidableEq, Repr

def isDigit (b : Nat) : Bool := 0x30 ≤ b && b ≤ 0x39

def natOfDigits (l : List Nat) : Nat :=
  l.foldl (fun a b => a * 10 + (b - 0x30)) 0

/-- Modelled from strconv.ParseInt(s, 10, 64): optional sign, at least one
digit, nothing else; out-of-range values are an error (`none`), not
saturation. -/
def parseInt64 (s : List Nat) : Option Int :=
  match s with
  | [] => none
  | b :: rest =>
    let neg := b == 0x2D
    let digits := if b == 0x2D || b == 0x2B then rest else s
    if digits = [] then none
    else if digits.all isDigit then
      let v : Nat := natOfDigits digits
      if neg then
        if v ≤ 2 ^ 63 then some (-(v : Int)) else none
      else
        if v ≤ 2 ^ 63 - 1 then some (v : Int) else none
    else none

/-- Modelled from strconv.ParseFloat(s, 64), restricted to the byte
alphabet the number scanner can deliver (digits, `-`, `.`, `e`, `E`; `+`
kept for strconv faithfulness): optional sign, mantissa digits with at
most one dot and at least one digit, optional exponent part with its own
optional sign and at least one digit.  The value is the exact rational
value of the decimal; float64 rounding and exponent-range overflow are not
modelled. -/
def parseFloat (s : List Nat) : Option ℚ :=
  let (neg, s1) :=
    match s with
    | 0x2D :: r => (true, r)
    | 0x2B :: r => (false, r)
    | _ => (false, s)
  let d1 := s1.takeWhile isDigit
  let s2 := s1.dropWhile isDigit
  let (d2, s3) :=
    match s2 with
    | 0x2E :: r => (r.takeWhile isDigit, r.dropWhile isDigit)
    | _ => ([], s2)
  if d1.length + d2.length == 0 then none
  else
    let mant : ℚ := (natOfDigits d1 : ℚ) + (natOfDigits d2 : ℚ) / 10 ^ d2.length
    let v : ℚ := if neg then -mant else mant
    match s3 with
    | [] => some v
    | e :: r =>
      if e == 0x65 || e == 0x45 then
        let (eneg, r2) :=
          match r with
          | 0x2D :: x => (true, x)
          | 0x2B :: x => (false, x)
          | _ => (false, r)
        let d3 := r2.takeWhile isDigit
        let r3 := r2.dropWhile isDigit
        if d3 = [] ∨ r3 ≠ [] then none
        else
          some (v * (10 : ℚ) ^ (if eneg then -(natOfDigits d3 : Int) else (natOfDigits d3 : Int)))
      else none

/-- `Decoder.expect`: consume and compare the fixed tail of a literal. -/
def expect (expected : List Nat) (tok : Token) (s : ByteState) (p : Pos) :
    Except GoError Token × ByteState :=
  match expected with
  | [] => (.ok tok, s)
  | c :: rest =>
    match next s with
    | (.error .eof, s') => (.error (errAt p .unexpectedEOFLiteral), s')
    | (.error e, s') => (.error e, s')
    | (.ok input, s') =>
      if input ≠ c then (.error (errAt p (.unexpectedInputLiteral input)), s')
      else expect rest tok s' p

/-- The scan loop of `Decoder.readNumber`: accumulate bytes of the class
digit / `-` / `.` / `e` / `E` into the 64-byte scratch buffer, noting
whether a float marker was seen; any other byte is pushed back and ends
the scan, end-of-stream ends the scan, storing a 65th byte is the
"number is too long" error.  `fuel` strictly exceeds `weight s`. -/
def scanNumberF (fuel : Nat) (s : ByteState) (p : Pos) (acc : List Nat) (isFloat : Bool) :
    Except GoError (List Nat × Bool) × ByteState :=
  match fuel with
  | 0 => (.error .eof, s)
  | fuel + 1 =>
    match next s with
    | (.error .eof, s') => (.ok (acc, isFloat), s')
    | (.error e, s') => (.error e, s')
    | (.ok input, s') =>
      if input == 0x2E || input == 0x65 || input == 0x45 then
        if acc.length == 64 then (.error (errAt p .numberTooLong), s')
        else scanNumberF fuel s' p (acc ++ [input]) true
      else if (input < 0x30 || 0x39 < input) && input ≠ 0x2D then
        (.ok (acc, isFloat), undo input s')
      else
        if acc.length == 64 then (.error (errAt p .numberTooLong), s')
        else scanNumberF fuel s' p (acc ++ [input]) isFloat

def scanNumber (s : ByteState) (p : Pos) (acc : List Nat) (isFloat : Bool) :
    Except GoError (List Nat × Bool) × ByteState :=
  scanNumberF (weight s + 1) s p acc isFloat

/-- `Decoder.readNumber`: scan, then convert via ParseInt/ParseFloat
depending on whether a `.`/`e`/`E` was seen; conversion failure is a
position-wrapped scan error. -/
def readNumber (s : ByteState) (p : Pos) : Except GoError Token × ByteState :=
  match scanNumber s p [] false with
  | (.error e, s') => (.error e, s')
  | (.ok (buf, isFloat), s') =>
    if isFloat then
      match parseFloat buf with
      | some q => (.ok (.float q), s')
      | none => (.error (errAt p .failedScanFloat), s')
    else
      match parseInt64 buf with
      | some i => (.ok (.int i), s')
      | none => (.error (errAt p .failedScanInt), s')

/-- The bytes `Decoder.skipWhitespace` treats as skippable separators:
space, CR, LF, tab, comma, colon. -/
def isSep (b : Nat) : Bool :=
  b == 0x20 || b == 0x0D || b == 0x0A || b == 0x09 || b == 0x2C || b == 0x3A

/-- The line/column update `skipWhitespace` applies for each pulled byte:
line feed starts a new line, anything else advances the column. -/
def advance (p : Pos) (b : Nat) : Pos :=
  if b == 0x0A then ⟨p.line + 1, 1⟩ else ⟨p.line, p.column + 1⟩

/-- `Decoder.skipWhitespace`: pull bytes, updating line/column, until a
non-separator byte appears; errors (clean EOF included) propagate.
`fuel` strictly exceeds `weight s`. -/
def skipWhitespaceF (fuel : Nat) (s : ByteState) (p : Pos) :
    Except GoError Nat × ByteState × Pos :=
  match fuel with
  | 0 => (.error .eof, s, p)
  | fuel + 1 =>
    match next s with
    | (.error e, s') => (.error e, s', p)
    | (.ok input, s') =>
      let p' := advance p input
      if isSep input then skipWhitespaceF fuel s' p'
      else (.ok input, s', p')

def skipWhitespace (s : ByteState) (p : Pos) : Except GoError Nat × ByteState × Pos :=
  skipWhitespaceF (weight s + 1) s p

/-- unicode/utf16.IsSurrogate: whole surrogate range 0xD800..0xDFFF. -/
def utf16IsSurrogate (c : Nat) : Bool := 0xD800 ≤ c && c < 0xE000

/-- unicode/utf16.DecodeRune: combine a surrogate pair; any invalid
combination yields U+FFFD (the replacement character). -/
def utf16DecodeRune (r1 r2 : Nat) : Nat :=
  if 0xD800 ≤ r1 && r1 < 0xDC00 && 0xDC00 ≤ r2 && r2 < 0xE000 then
    (r1 - 0xD800) * 0x400 + (r2 - 0xDC00) + 0x10000
  else 0xFFFD

/-- unicode/utf8.EncodeRune: UTF-8 bytes of a rune; surrogates and
out-of-range runes encode U+FFFD. -/
def utf8EncodeRune (c : Nat) : List Nat :=
  if c < 0x80 then [c]
  else if c < 0x800 then [0xC0 + c / 64, 0x80 + c % 64]
  else if 0x10FFFF < c || (0xD800 ≤ c && c < 0xE000) then [0xEF, 0xBF, 0xBD]
  else if c < 0x10000 then [0xE0 + c / 4096, 0x80 + c / 64 % 64, 0x80 + c % 64]
  else [0xF0 + c / 262144, 0x80 + c / 4096 % 64, 0x80 + c / 64 % 64, 0x80 + c % 64]

/-- The hex-digit test of the `unicode` step (its error condition is the
complement of this). -/
def hexDigit (b : Nat) : Bool :=
  (0x30 ≤ b && b ≤ 0x39) || (0x61 ≤ b && b ≤ 0x66) || (0x41 ≤ b && b ≤ 0x46)

def hexVal (b : Nat) : Nat :=
  if 0x30 ≤ b && b ≤ 0x39 then b - 0x30
  else if 0x61 ≤ b && b ≤ 0x66 then b - 0x61 + 10
  else if 0x41 ≤ b && b ≤ 0x46 then b - 0x41 + 10
  else 0

/-- `getu4`: strconv.ParseUint(s, 16, 64) of the four accumulated bytes
(the error is discarded in the source; callers only reach this with four
validated hex digits, for which the parse cannot fail). -/
def getu4 (s : List Nat) : Nat := s.foldl (fun a b => a * 16 + hexVal b) 0

/-- The state-function tags of the string decoder (`stringReader.step`,
a function pointer in the source). -/
inductive Step where
  | defaultStep
  | escape
  | unicode
  | surrogateEscape
  | surrogateEscapeU
deriving DecidableEq, Repr

/-- `stringReader`: `memory` models the filled prefix
`memory[0:memoryOffset]` of the 4-byte hex accumulator; `surrogate = 0`
is the "no pending surrogate" sentinel, exactly as in the source. -/
structure stringReader where
  eof : Bool
  step : Step
  memory : List Nat
  outputBuffer : List Nat
  surrogate : Nat
deriving DecidableEq, Repr

/-- `Decoder.newStringReader`. -/
def newStringReader : stringReader :=
  { eof := false, step := .defaultStep, memory := [], outputBuffer := [], surrogate := 0 }

/-- Result of one step function call: the `(output byte, ok, err)` triple
of the source collapsed (`emit b` = output with ok, `skip` = no output
and no error, `fail e` = error). -/
inductive StepOut where
  | emit (b : Nat)
  | skip
  | fail (e : GoError)
deriving DecidableEq, Repr

/-- The fixed JSON escape table of the `escape` step. -/
def escMap (b : Nat) : Option Nat :=
  if b == 0x22 then some 0x22
  else if b == 0x5C then some 0x5C
  else if b == 0x2F then some 0x2F
  else if b == 0x62 then some 0x08
  else if b == 0x66 then some 0x0C
  else if b == 0x6E then some 0x0A
  else if b == 0x72 then some 0x0D
  else if b == 0x74 then some 0x09
  else none

/-- One transition of the string-decoder state machine: the bodies of
`defaultStep`, `escape`, `unicode`, `surrogateEscape` and
`surrogateEscapeU`, dispatched on the current step tag.  State mutations
persist even when an error is returned, as with the Go pointer receiver.
(The source reuses `memory` as the UTF-8 encode scratch; since `memory`
is reset before its next use, the embedding leaves the accumulated hex
bytes in place instead.) -/
def stepRun (r : stringReader) (p : Pos) (input : Nat) : stringReader × StepOut :=
  match r.step with
  | .defaultStep =>
    if input == 0x22 then ({ r with eof := true }, .fail .eof)
    else if input == 0x5C then ({ r with step := .escape }, .skip)
    else (r, .emit input)
  | .escape =>
    if input == 0x75 then ({ r with step := .unicode, memory := [] }, .skip)
    else
      match escMap input with
      | some o => ({ r with step := .defaultStep }, .emit o)
      | none => ({ r with step := .defaultStep }, .fail (errAt p (.badEscapeChar input)))
  | .unicode =>
    if ¬hexDigit input then (r, .fail (errAt p (.badUnicodeEscapeChar input)))
    else
      let m := r.memory ++ [input]
      if m.length < 4 then ({ r with memory := m }, .skip)
      else
        let cp := getu4 m
        if r.surrogate == 0 then
          if utf16IsSurrogate cp then
            ({ r with memory := m, surrogate := cp, step := .surrogateEscape }, .skip)
          else
            ({ r with memory := m, outputBuffer := utf8EncodeRune cp, step := .defaultStep }, .skip)
        else
          if ¬utf16IsSurrogate cp then
            ({ r with memory := m }, .fail (errAt p .incompleteSurrogatePair))
          else
            ({ r with memory := m,
                      outputBuffer := utf8EncodeRune (utf16DecodeRune r.surrogate cp),
                      surrogate := 0, step := .defaultStep }, .skip)
  | .surrogateEscape =>
    if input ≠ 0x5C then (r, .fail (errAt p (.expectedBackslashSurrogate input)))
    else ({ r with step := .surrogateEscapeU }, .skip)
  | .surrogateEscapeU =>
    if input ≠ 0x75 then (r, .fail (errAt p (.expectedUSurrogate input)))
    else ({ r with step := .unicode, memory := [] }, .skip)

/-- Result of one `stringReader.Read` call over a caller buffer `p` of a
given capacity: `n` is the returned byte count, `written` the bytes
physically copied into `p` (a prefix of `p`; `written.length` can exceed
`n` when the call fails after copying, since the source then returns a
literal 0), plus the final error and the mutated reader/decoder state. -/
structure ReadResult where
  n : Nat
  written : List Nat
  err : Option GoError
  r : stringReader
  s : ByteState
deriving DecidableEq, Repr

/-- The `for n < len(p)` loop of `stringReader.Read`: drain the output
buffer first, else pull one raw byte (source EOF mid-string is the
"unexpected EOF while reading string" scan error, other source errors
propagate verbatim, both reported with count 0) and run one step.
`fuel` strictly exceeds `5 * weight s + r.outputBuffer.length`. -/
def readLoopF (fuel : Nat) (r : stringReader) (s : ByteState) (p : Pos) (cap : Nat)
    (n : Nat) (written : List Nat) : ReadResult :=
  match fuel with
  | 0 => ⟨n, written, none, r, s⟩
  | fuel + 1 =>
    if n < cap then
      match r.outputBuffer with
      | b :: rest =>
        readLoopF fuel { r with outputBuffer := rest } s p cap (n + 1) (written ++ [b])
      | [] =>
        match next s with
        | (.error .eof, s') => ⟨0, written, some (errAt p .unexpectedEOFString), r, s'⟩
        | (.error e, s') => ⟨0, written, some e, r, s'⟩
        | (.ok input, s') =>
          match stepRun r p input with
          | (r', .fail e) => ⟨n, written, some e, r', s'⟩
          | (r', .emit o) => readLoopF fuel r' s' p cap (n + 1) (written ++ [o])
          | (r', .skip) => readLoopF fuel r' s' p cap n written
    else ⟨n, written, none, r, s⟩

/-- `stringReader.Read`: an exhausted reader reports (0, io.EOF) forever;
otherwise run the fill loop. -/
def stringReader.Read (r : stringReader) (s : ByteState) (p : Pos) (cap : Nat) : ReadResult :=
  if r.eof then ⟨0, [], some .eof, r, s⟩
  else readLoopF (5 * weight s + r.outputBuffer.length + 1) r s p cap 0 []

/-- The unbounded-capacity run of the `stringReader.Read` loop: what
`ioutil.ReadAll` over the reader produces.  On the closing quote
(`fail io.EOF`) ReadAll stops successfully with the collected bytes; any
other error is returned as-is (ReadAll's partial data is discarded by
every caller in the source on the error path). -/
def drainLoopF (fuel : Nat) (r : stringReader) (s : ByteState) (p : Pos) (acc : List Nat) :
    Except GoError (List Nat) × stringReader × ByteState :=
  match fuel with
  | 0 => (.ok acc, r, s)
  | fuel + 1 =>
    match r.outputBuffer with
    | b :: rest => drainLoopF fuel { r with outputBuffer := rest } s p (acc ++ [b])
    | [] =>
      match next s with
      | (.error .eof, s') => (.error (errAt p .unexpectedEOFString), r, s')
      | (.error e, s') => (.error e, r, s')
      | (.ok input, s') =>
        match stepRun r p input with
        | (r', .fail .eof) => (.ok acc, r', s')
        | (r', .fail e) => (.error e, r', s')
        | (r', .emit o) => drainLoopF fuel r' s' p (acc ++ [o])
        | (r', .skip) => drainLoopF fuel r' s' p acc

/-- The drain loop started with sufficient fuel from an arbitrary
accumulator. -/
def drainGo (r : stringReader) (s : ByteState) (p : Pos) (acc : List Nat) :
    Except GoError (List Nat) × stringReader × ByteState :=
  drainLoopF (5 * weight s + r.outputBuffer.length + 1) r s p acc

def drainAll (r : stringReader) (s : ByteState) (p : Pos) :
    Except GoError (List Nat) × stringReader × ByteState :=
  if r.eof then (.ok [], r, s)
  else drainGo r s p []

/-- `Decoder.readString`: fully drain a fresh string reader; a drain
error is wrapped as "unable to read string: ..." (no position). -/
def readString (s : ByteState) (p : Pos) : Except GoError Token × ByteState :=
  match drainAll newStringReader s p with
  | (.ok bytes, _, s') => (.ok (.str bytes), s')
  | (.error e, _, s') => (.error (.unableToReadString e), s')

/-- `Decoder.readToken`: dispatch on the first significant byte. -/
def readToken (input : Nat) (s : ByteState) (p : Pos) : Except GoError Token × ByteState :=
  if input == 0x7B || input == 0x7D || input == 0x5B || input == 0x5D then
    (.ok (.delim input), s)
  else if input == 0x22 then readString s p
  else if input == 0x74 then expect [0x72, 0x75, 0x65] (.boolean true) s p
  else if input == 0x66 then expect [0x61, 0x6C, 0x73, 0x65] (.boolean false) s p
  else if input == 0x6E then expect [0x75, 0x6C, 0x6C] .null s p
  else if input == 0x2D || input == 0x2E || (0x30 ≤ input && input ≤ 0x39) then
    readNumber (undo input s) p
  else (.error (errAt p (.badInputByte input)), s)

/-- `Decoder.Token`: skip separators, then classify and read one token. -/
def tokenOp (s : ByteState) (p : Pos) : Except GoError Token × ByteState × Pos :=
  match skipWhitespace s p with
  | (.error e, s', p') => (.error e, s', p')
  | (.ok input, s', p') =>
    match readToken input s' p' with
    | (.ok t, s'') => (.ok t, s'', p')
    | (.error e, s'') => (.error e, s'', p')

/-- `Decoder.StringReader`: skip separators; a non-quote significant byte
is pushed back and reported as the typed `ErrNotString`; otherwise hand
back a fresh lazy string reader. -/
def stringReaderOp (s : ByteState) (p : Pos) :
    Except GoError stringReader × ByteState × Pos :=
  match skipWhitespace s p with
  | (.error e, s', p') => (.error e, s', p')
  | (.ok input, s', p') =>
    if input ≠ 0x22 then (.error .notString, undo input s', p')
    else (.ok newStringReader, s', p')

/-- Results of `n` successive `Decoder.Token` calls. -/
def runN : Nat → ByteState → Pos → List (Except GoError Token)
  | 0, _, _ => []
  | n + 1, s, p =>
    match tokenOp s p with
    | (r, s', p') => r :: runN n s' p'

/-- The bytes still to be delivered by `next`: pushback slot first, then
the undelivered source bytes.  `undo` leaves it unchanged after the byte
it re-inserts. -/
def eff (s : ByteState) : List Nat :=
  (match s.prepared with | some b => [b] | none => []) ++ s.input

/-- The three bytes whose appearance makes `readNumber` treat the scanned
run as a float: `.`, `e`, `E`. -/
def isMarker (b : Nat) : Bool := b == 0x2E || b == 0x65 || b == 0x45

/-- The byte class the number scan loop consumes: digits, `-`, and the
float markers. -/
def numClass (b : Nat) : Bool := isDigit b || b == 0x2D || isMarker b

/-- Spec-side description of the UTF-16 high-surrogate range, used to
state what the spec asserts about the `unicode` step (the source instead
tests membership in the whole surrogate range). -/
def isHighSurrogate (c : Nat) : Bool := 0xD800 ≤ c && c < 0xDC00

/-- Spec-side description of the UTF-16 low-surrogate range. -/
def isLowSurrogate (c : Nat) : Bool := 0xDC00 ≤ c && c < 0xE000

/-- One syntactic element of a string token's body, for stating the
well-formed-input theorem: a plain byte, a single-character escape, a
4-hex-digit unicode escape, or a surrogate-pair escape. -/
inductive Item where
  | raw (b : Nat)
  | esc (c : Nat)
  | uni (hs : List Nat)
  | pair (h1 h2 : List Nat)
deriving DecidableEq, Repr

/-- The raw bytes of a body item as they appear in the input. -/
def Item.render : Item → List Nat
  | .raw b => [b]
  | .esc c => [0x5C, c]
  | .uni hs => 0x5C :: 0x75 :: hs
  | .pair h1 h2 => 0x5C :: 0x75 :: (h1 ++ 0x5C :: 0x75 :: h2)

/-- The decoded output bytes of a body item. -/
def Item.decode : Item → List Nat
  | .raw b => [b]
  | .esc c => [(escMap c).getD 0]
  | .uni hs => utf8EncodeRune (getu4 hs)
  | .pair h1 h2 => utf8EncodeRune (utf16DecodeRune (getu4 h1) (getu4 h2))

/-- Well-formedness of a body item: raw bytes are neither quote nor
backslash, escapes are in the escape table, unicode escapes are four hex
digits outside the surrogate range, and pair escapes are two four-hex-digit
units inside the surrogate range. -/
def Item.valid : Item → Prop
  | .raw b => b ≠ 0x22 ∧ b ≠ 0x5C
  | .esc c => (escMap c).isSome = true
  | .uni hs => hs.length = 4 ∧ (∀ b ∈ hs, hexDigit b = true) ∧
      utf16IsSurrogate (getu4 hs) = false
  | .pair h1 h2 => h1.length = 4 ∧ h2.length = 4 ∧
      (∀ b ∈ h1, hexDigit b = true) ∧ (∀ b ∈ h2, hexDigit b = true) ∧
      utf16IsSurrogate (getu4 h1) = true ∧ utf16IsSurrogate (getu4 h2) = true

/-- The text of one well-formed token, for stating the well-formed-input
theorem. -/
inductive TokenText where
  | delim (c : Nat)
  | tru
  | fals
  | nul
  | num (bs : List Nat)
  | str (items : List Item)
deriving DecidableEq, Repr

/-- The raw input bytes of a token text. -/
def TokenText.render : TokenText → List Nat
  | .delim c => [c]
  | .tru => [0x74, 0x72, 0x75, 0x65]
  | .fals => [0x66, 0x61, 0x6C, 0x73, 0x65]
  | .nul => [0x6E, 0x75, 0x6C, 0x6C]
  | .num bs => bs
  | .str items => 0x22 :: ((items.map Item.render).flatten ++ [0x22])

/-- The token a well-formed token text denotes. -/
def TokenText.tok : TokenText → Token
  | .delim c => .delim c
  | .tru => .boolean true
  | .fals => .boolean false
  | .nul => .null
  | .num bs =>
    if bs.any isMarker then .float ((parseFloat bs).getD 0)
    else .int ((parseInt64 bs).getD 0)
  | .str items => .str (items.map Item.decode).flatten

/-- Well-formedness of a token text: delimiters are one of the four
delimiter bytes; number texts start with a byte the classifier routes to
the number scanner, consist of scannable bytes, fit the 64-byte scratch
buffer, and convert successfully; string bodies are well-formed items. -/
def TokenText.valid : TokenText → Prop
  | .delim c => c = 0x7B ∨ c = 0x7D ∨ c = 0x5B ∨ c = 0x5D
  | .tru => True
  | .fals => True
  | .nul => True
  | .num bs =>
    (∃ b0 tl, bs = b0 :: tl ∧ (b0 = 0x2D ∨ b0 = 0x2E ∨ isDigit b0 = true)) ∧
    (∀ b ∈ bs, numClass b = true) ∧ bs.length ≤ 64 ∧
    (if bs.any isMarker then (parseFloat bs).isSome else (parseInt64 bs).isSome) = true
  | .str items => ∀ it ∈ items, it.valid

/-- A separator-interleaved rendering: each token text preceded by its
run of separator bytes, with a trailing separator run. -/
def interleave : List (List Nat × TokenText) → List Nat → List Nat
  | [], last => last
  | (sep, t) :: rest, last => sep ++ t.render ++ interleave rest last

/-! ### Basic facts about the byte cursor -/

theorem weight_eq_eff (s : ByteState) : weight s = (eff s).length := by
  obtain ⟨pr, input, term⟩ := s
  cases pr <;> simp [weight, eff]

theorem eff_nil {s : ByteState} (h : eff s = []) : s = ⟨none, [], s.term⟩ := by
  obtain ⟨pr, input, term⟩ := s
  cases pr <;> simp_all [eff]

theorem next_eff_cons {s : ByteState} {b : Nat} {l : List Nat} (h : eff s = b :: l) :
    next s = (.ok b, ⟨none, l, s.term⟩) := by
  obtain ⟨pr, input, term⟩ := s
  cases pr with
  | some c =>
    simp [eff] at h
    simp [next, h.1, h.2]
  | none =>
    cases input <;> simp_all [eff, next]

theorem next_eff_nil {s : ByteState} (h : eff s = []) :
    next s = (match s.term with
      | .eof => (.error .eof, s)
      | .ioError e => (.error (.ioError e), s)) := by
  obtain ⟨pr, input, term⟩ := s
  cases pr with
  | some c => simp [eff] at h
  | none =>
    cases input with
    | cons b l => simp [eff] at h
    | nil => cases term <;> simp [next]

theorem next_ok_eff {s s' : ByteState} {b : Nat} (h : next s = (.ok b, s')) :
    eff s = b :: eff s' ∧ s'.term = s.term := by
  obtain ⟨pr, input, term⟩ := s
  cases pr with
  | some c => simp [next] at h; simp [← h.1, ← h.2, eff]
  | none =>
    cases input with
    | nil => cases term <;> simp [next] at h
    | cons x l => simp [next] at h; simp [← h.1, ← h.2, eff]

theorem next_error_state {s s' : ByteState} {e : GoError} (h : next s = (.error e, s')) :
    s' = s := by
  obtain ⟨pr, input, term⟩ := s
  cases pr with
  | some c => simp [next] at h
  | none =>
    cases input with
    | nil => cases term <;> simp_all [next]
    | cons x l => simp [next] at h

theorem next_ok_weight {s s' : ByteState} {b : Nat} (h : next s = (.ok b, s')) :
    weight s = weight s' + 1 := by
  have := next_ok_eff h
  rw [weight_eq_eff, weight_eq_eff, this.1]
  simp

/-! ### UTF-8 encoding length bounds -/

theorem utf8EncodeRune_length (c : Nat) : (utf8EncodeRune c).length ≤ 4 := by
  unfold utf8EncodeRune
  repeat' split
  all_goals simp

theorem stepRun_buffer {r : stringReader} (p : Pos) (i : Nat) (h : r.outputBuffer = []) :
    (stepRun r p i).1.outputBuffer.length ≤ 4 := by
  unfold stepRun
  repeat' split
  all_goals simp [h, utf8EncodeRune_length]
  all_goals repeat' split
  all_goals simp [h, utf8EncodeRune_length]

/-! ### Fuel invariance for the drain loop -/

theorem drainLoopF_fuel {f1 f2 : Nat} (r : stringReader) (s : ByteState) (p : Pos)
    (acc : List Nat) (h1 : 5 * weight s + r.outputBuffer.length < f1)
    (h2 : 5 * weight s + r.outputBuffer.length < f2) :
    drainLoopF f1 r s p acc = drainLoopF f2 r s p acc := by
  induction f1 generalizing f2 r s acc with
  | zero => omega
  | succ f1 ih =>
    obtain ⟨f2', rfl⟩ : ∃ x, f2 = x + 1 := ⟨f2 - 1, by omega⟩
    show drainLoopF (f1 + 1) r s p acc = drainLoopF (f2' + 1) r s p acc
    rw [drainLoopF, drainLoopF]
    cases hb : r.outputBuffer with
    | cons b rest =>
      simp only [hb]
      have hlen : r.outputBuffer.length = rest.length + 1 := by rw [hb]; rfl
      apply ih
      · show 5 * weight s + rest.length < f1
        omega
      · show 5 * weight s + rest.length < f2'
        omega
    | nil =>
      rcases hn : next s with ⟨res, s'⟩
      simp only [hb, hn]
      cases res with
      | error e => cases e <;> rfl
      | ok input =>
        rcases hs : stepRun r p input with ⟨r', out⟩
        simp only [hs]
        have hw : weight s = weight s' + 1 := next_ok_weight hn
        have hbuf : r'.outputBuffer.length ≤ 4 := by
          have := stepRun_buffer p input hb
          rw [hs] at this
          exact this
        have hb1 : r.outputBuffer.length = 0 := by simp [hb]
        cases out with
        | fail e => cases e <;> rfl
        | emit o => apply ih <;> omega
        | skip => apply ih <;> omega

/-! ### Step equations for the separator skipper -/

theorem skipWhitespace_cons {s : ByteState} {b : Nat} {rest : List Nat}
    (h : eff s = b :: rest) (p : Pos) :
    skipWhitespace s p =
      (if isSep b then skipWhitespace ⟨none, rest, s.term⟩ (advance p b)
       else (.ok b, ⟨none, rest, s.term⟩, advance p b)) := by
  have hw : weight s = rest.length + 1 := by
    rw [weight_eq_eff, h]; rfl
  have hw2 : weight (⟨none, rest, s.term⟩ : ByteState) = rest.length := by
    simp [weight]
  rw [skipWhitespace, hw]
  rw [skipWhitespaceF, next_eff_cons h]
  simp only []
  split
  · rw [skipWhitespace, hw2]
  · rfl

theorem skipWhitespace_nil {s : ByteState} (h : eff s = []) (p : Pos) :
    skipWhitespace s p =
      (match s.term with
       | .eof => (.error .eof, s, p)
       | .ioError e => (.error (.ioError e), s, p)) := by
  rw [skipWhitespace, weight_eq_eff, h]
  show skipWhitespaceF 1 s p = _
  rw [skipWhitespaceF, next_eff_nil h]
  cases s.term <;> rfl

/-! ### Step equations for the number scan loop -/

theorem scanNumber_cons {s : ByteState} {b : Nat} {rest : List Nat}
    (h : eff s = b :: rest) (p : Pos) (acc : List Nat) (isFloat : Bool) :
    scanNumber s p acc isFloat =
      (if b == 0x2E || b == 0x65 || b == 0x45 then
        if acc.length == 64 then (.error (errAt p .numberTooLong), ⟨none, rest, s.term⟩)
        else scanNumber ⟨none, rest, s.term⟩ p (acc ++ [b]) true
      else if (b < 0x30 || 0x39 < b) && b ≠ 0x2D then
        (.ok (acc, isFloat), undo b ⟨none, rest, s.term⟩)
      else
        if acc.length == 64 then (.error (errAt p .numberTooLong), ⟨none, rest, s.term⟩)
        else scanNumber ⟨none, rest, s.term⟩ p (acc ++ [b]) isFloat) := by
  have hw : weight s = rest.length + 1 := by
    rw [weight_eq_eff, h]; rfl
  have hw2 : weight (⟨none, rest, s.term⟩ : ByteState) = rest.length := by
    simp [weight]
  rw [scanNumber, hw]
  rw [scanNumberF, next_eff_cons h]
  simp only []
  split
  · split
    · rfl
    · rw [scanNumber, hw2]
  · split
    · rfl
    · split
      · rfl
      · rw [scanNumber, hw2]

theorem scanNumber_nil {s : ByteState} (h : eff s = []) (p : Pos) (acc : List Nat)
    (isFloat : Bool) :
    scanNumber s p acc isFloat =
      (match s.term with
       | .eof => (.ok (acc, isFloat), s)
       | .ioError e => (.error (.ioError e), s)) := by
  rw [scanNumber, weight_eq_eff, h]
  show scanNumberF 1 s p acc isFloat = _
  rw [scanNumberF, next_eff_nil h]
  cases s.term <;> rfl

/-! ### Step equations for the literal matcher -/

theorem expect_cons {s : ByteState} {b : Nat} {rest : List Nat} (h : eff s = b :: rest)
    (c : Nat) (ex : List Nat) (tok : Token) (p : Pos) :
    expect (c :: ex) tok s p =
      (if b ≠ c then (.error (errAt p (.unexpectedInputLiteral b)), ⟨none, rest, s.term⟩)
       else expect ex tok ⟨none, rest, s.term⟩ p) := by
  rw [expect, next_eff_cons h]

theorem expect_nil {s : ByteState} (h : eff s = []) (c : Nat) (ex : List Nat)
    (tok : Token) (p : Pos) :
    expect (c :: ex) tok s p =
      (match s.term with
       | .eof => (.error (errAt p .unexpectedEOFLiteral), s)
       | .ioError e => (.error (.ioError e), s)) := by
  rw [expect, next_eff_nil h]
  cases s.term <;> rfl

/-! ### Step equations for the string drain loop -/

theorem drainGo_flush {r : stringReader} {b : Nat} {l : List Nat}
    (h : r.outputBuffer = b :: l) (s : ByteState) (p : Pos) (acc : List Nat) :
    drainGo r s p acc = drainGo { r with outputBuffer := l } s p (acc ++ [b]) := by
  have hlen : r.outputBuffer.length = l.length + 1 := by rw [h]; rfl
  rw [drainGo, hlen]
  show drainLoopF (5 * weight s + l.length + 1 + 1) r s p acc = _
  rw [drainLoopF]
  simp only [h]
  rfl

theorem drainGo_step {r : stringReader} {s : ByteState} {b : Nat} {rest : List Nat}
    (hb : r.outputBuffer = []) (h : eff s = b :: rest) (p : Pos) (acc : List Nat) :
    drainGo r s p acc =
      (match stepRun r p b with
       | (r', .fail .eof) => (.ok acc, r', ⟨none, rest, s.term⟩)
       | (r', .fail e) => (.error e, r', ⟨none, rest, s.term⟩)
       | (r', .emit o) => drainGo r' ⟨none, rest, s.term⟩ p (acc ++ [o])
       | (r', .skip) => drainGo r' ⟨none, rest, s.term⟩ p acc) := by
  have hw : weight s = rest.length + 1 := by
    rw [weight_eq_eff, h]; rfl
  have hw2 : weight (⟨none, rest, s.term⟩ : ByteState) = rest.length := by
    simp [weight]
  rw [drainGo, hw, hb]
  show drainLoopF (5 * (rest.length + 1) + 0 + 1) r s p acc = _
  have : 5 * (rest.length + 1) + 0 + 1 = (5 * (rest.length + 1)) + 1 := by omega
  rw [this, drainLoopF]
  simp only [hb, next_eff_cons h]
  rcases hs : stepRun r p b with ⟨r', out⟩
  have hbuf : r'.outputBuffer.length ≤ 4 := by
    have := stepRun_buffer p b hb
    rw [hs] at this
    exact this
  cases out with
  | fail e => cases e <;> rfl
  | emit o =>
    show drainLoopF (5 * (rest.length + 1)) r' ⟨none, rest, s.term⟩ p (acc ++ [o]) = _
    simp only [drainGo, hw2]
    exact drainLoopF_fuel r' _ p _ (by omega) (by omega)
  | skip =>
    show drainLoopF (5 * (rest.length + 1)) r' ⟨none, rest, s.term⟩ p acc = _
    simp only [drainGo, hw2]
    exact drainLoopF_fuel r' _ p _ (by omega) (by omega)

theorem drainGo_nil {r : stringReader} {s : ByteState} (hb : r.outputBuffer = [])
    (h : eff s = []) (p : Pos) (acc : List Nat) :
    drainGo r s p acc =
      (match s.term with
       | .eof => (.error (errAt p .unexpectedEOFString), r, s)
       | .ioError e => (.error (.ioError e), r, s)) := by
  rw [drainGo, weight_eq_eff, h, hb]
  show drainLoopF 1 r s p acc = _
  rw [drainLoopF]
  simp only [hb, next_eff_nil h]
  cases s.term <;> rfl

/-! ### Shape lemmas for errors -/

theorem eff_mk (l : List Nat) (t : Term) : eff ⟨none, l, t⟩ = l := by simp [eff]

theorem next_error_term {s s' : ByteState} {e : GoError} (h : next s = (.error e, s')) :
    (e = .eof ∧ s.term = .eof) ∨ ∃ x, e = .ioError x ∧ s.term = .ioError x := by
  obtain ⟨pr, input, term⟩ := s
  cases pr with
  | some c => simp [next] at h
  | none =>
    cases input with
    | cons x l => simp [next] at h
    | nil => cases term <;> simp_all [next]

theorem stepRun_fail_shape {r r' : stringReader} {e : GoError} (p : Pos) (i : Nat)
    (h : stepRun r p i = (r', .fail e)) :
    (e = .eof ∧ r'.eof = true) ∨ ∃ m, e = errAt p m ∧ m ≠ Msg.unexpectedEOFString := by
  cases hst : r.step <;> simp only [stepRun, hst] at h
  case defaultStep =>
    split_ifs at h <;> simp only [Prod.mk.injEq] at h
    · rcases h with ⟨hr, he⟩
      cases he
      exact Or.inl ⟨rfl, by rw [← hr]⟩
    · exact absurd h.2 (by simp)
    · exact absurd h.2 (by simp)
  case escape =>
    split_ifs at h
    · exact absurd (congrArg Prod.snd h) (by simp)
    · rcases hm : escMap i with _ | o <;> simp only [hm] at h <;>
        simp only [Prod.mk.injEq] at h
      · rcases h with ⟨hr, he⟩
        cases he
        exact Or.inr ⟨_, rfl, by simp⟩
      · exact absurd h.2 (by simp)
  case unicode =>
    split_ifs at h <;> simp only [Prod.mk.injEq] at h
    all_goals
      first
      | (rcases h with ⟨hr, he⟩
         cases he
         exact Or.inr ⟨_, rfl, by simp⟩)
      | exact absurd h.2 (by simp)
  case surrogateEscape =>
    split_ifs at h <;> simp only [Prod.mk.injEq] at h
    all_goals
      first
      | (rcases h with ⟨hr, he⟩
         cases he
         exact Or.inr ⟨_, rfl, by simp⟩)
      | exact absurd h.2 (by simp)
  case surrogateEscapeU =>
    split_ifs at h <;> simp only [Prod.mk.injEq] at h
    all_goals
      first
      | (rcases h with ⟨hr, he⟩
         cases he
         exact Or.inr ⟨_, rfl, by simp⟩)
      | exact absurd h.2 (by simp)

/-- Any `stringReader.Read`-loop outcome whose error is a source-side
failure (a verbatim I/O error, or the mid-string EOF scan error) reports a
byte count of zero, regardless of what was already copied. -/
theorem readLoopF_err_zero (fuel : Nat) (r : stringReader) (s : ByteState) (p : Pos)
    (cap n : Nat) (w : List Nat) (x l c : Nat)
    (h : (readLoopF fuel r s p cap n w).err = some (.ioError x) ∨
         (readLoopF fuel r s p cap n w).err = some (.scanError l c .unexpectedEOFString)) :
    (readLoopF fuel r s p cap n w).n = 0 := by
  induction fuel generalizing r s n w with
  | zero => simp [readLoopF] at h
  | succ fuel ih =>
    rw [readLoopF] at h ⊢
    by_cases hc : n < cap
    · simp only [if_pos hc] at h ⊢
      cases hb : r.outputBuffer with
      | cons b rest =>
        simp only [hb] at h ⊢
        exact ih _ _ _ _ h
      | nil =>
        simp only [hb] at h ⊢
        rcases hn : next s with ⟨res, s'⟩
        simp only [hn] at h ⊢
        cases res with
        | error e =>
          cases e <;> rfl
        | ok input =>
          rcases hs : stepRun r p input with ⟨r', out⟩
          simp only [hs] at h ⊢
          cases out with
          | fail e =>
            rcases stepRun_fail_shape p input hs with ⟨he, _⟩ | ⟨m, he, hm⟩ <;> subst he <;>
              simp_all [errAt]
          | emit o => exact ih _ _ _ _ h
          | skip => exact ih _ _ _ _ h
    · simp only [if_neg hc] at h
      simp at h

/-- A `stringReader.Read`-loop outcome whose error is the clean io.EOF
value can only come from the closing-quote transition, which set the
reader's exhausted flag. -/
theorem readLoopF_eof_flag (fuel : Nat) (r : stringReader) (s : ByteState) (p : Pos)
    (cap n : Nat) (w : List Nat)
    (h : (readLoopF fuel r s p cap n w).err = some .eof) :
    (readLoopF fuel r s p cap n w).r.eof = true := by
  induction fuel generalizing r s n w with
  | zero => simp [readLoopF] at h
  | succ fuel ih =>
    rw [readLoopF] at h ⊢
    by_cases hc : n < cap
    · simp only [if_pos hc] at h ⊢
      cases hb : r.outputBuffer with
      | cons b rest =>
        simp only [hb] at h ⊢
        exact ih _ _ _ _ h
      | nil =>
        simp only [hb] at h ⊢
        rcases hn : next s with ⟨res, s'⟩
        simp only [hn] at h ⊢
        cases res with
        | error e =>
          cases e <;> simp_all [errAt]
        | ok input =>
          rcases hs : stepRun r p input with ⟨r', out⟩
          simp only [hs] at h ⊢
          cases out with
          | fail e =>
            rcases stepRun_fail_shape p input hs with ⟨he, hf⟩ | ⟨m, he, _⟩ <;> subst he <;>
              simp_all [errAt]
          | emit o => exact ih _ _ _ _ h
          | skip => exact ih _ _ _ _ h
    · simp only [if_neg hc] at h
      simp at h

/-- The drain loop never alters a source I/O failure: with the source's
terminal condition being `ioError e`, any I/O-error-shaped outcome is
exactly `e`; every other error it can produce is a position-wrapped scan
error from a step function. -/
theorem drainLoopF_io (fuel : Nat) (r : stringReader) (s : ByteState) (p : Pos)
    (acc : List Nat) (e : Nat) (hterm : s.term = .ioError e) {er : GoError}
    (h : (drainLoopF fuel r s p acc).1 = .error er) :
    er = .ioError e ∨ ∃ l c m, er = .scanError l c m := by
  induction fuel generalizing r s acc with
  | zero => simp [drainLoopF] at h
  | succ fuel ih =>
    rw [drainLoopF] at h
    cases hb : r.outputBuffer with
    | cons b rest =>
      simp only [hb] at h
      exact ih _ _ _ hterm h
    | nil =>
      simp only [hb] at h
      rcases hn : next s with ⟨res, s'⟩
      simp only [hn] at h
      cases res with
      | error e' =>
        rcases next_error_term hn with ⟨he, ht⟩ | ⟨x, he, ht⟩
        · rw [hterm] at ht; cases ht
        · subst he
          rw [hterm] at ht
          cases e' : ht
          simp at h
          left
          rw [← h]
      | ok input =>
        rcases hs : stepRun r p input with ⟨r', out⟩
        simp only [hs] at h
        cases out with
        | fail e' =>
          rcases stepRun_fail_shape p input hs with ⟨he, _⟩ | ⟨m, he, _⟩
          · subst he; simp at h
          · subst he
            cases e'' : er <;> simp_all [errAt]
        | emit o =>
          exact ih _ _ _ (by rw [(next_ok_eff hn).2, hterm]) h
        | skip =>
          exact ih _ _ _ (by rw [(next_ok_eff hn).2, hterm]) h

/-! ### Lemmas about the number scan loop -/

/-- Byte-class facts: a scannable non-marker byte does not trigger the
push-back exit of the scan loop. -/
theorem undo_cond_false {b : Nat} (hb : numClass b = true) (hm : isMarker b = false) :
    ((b < 0x30 || 0x39 < b) && b ≠ 0x2D) = false := by
  simp [numClass, isDigit, isMarker] at hb hm ⊢
  omega

/-- A non-scannable byte triggers the push-back exit of the scan loop. -/
theorem undo_cond_true {b : Nat} (hb : numClass b = false) :
    ((b < 0x30 || 0x39 < b) && b ≠ 0x2D) = true ∧ isMarker b = false := by
  simp [numClass, isDigit, isMarker] at hb ⊢
  omega

theorem marker_cond (b : Nat) : (b == 0x2E || b == 0x65 || b == 0x45) = isMarker b := rfl

/-- Consumption lemma: a run of scannable bytes that fits the scratch
buffer, delimited by end-of-stream or a non-scannable byte, is consumed
whole; the loop's float flag ends up set exactly when the run contains a
`.`, `e`, or `E`; the delimiting byte, if any, is pushed back. -/
theorem scanNumber_run (l : List Nat) (hl : ∀ b ∈ l, numClass b = true)
    (s : ByteState) (p : Pos) (acc : List Nat) (f : Bool) (rest : List Nat)
    (heff : eff s = l ++ rest) (hlen : acc.length + l.length ≤ 64)
    (hrest : (rest = [] ∧ s.term = .eof) ∨ (∃ b r', rest = b :: r' ∧ numClass b = false)) :
    scanNumber s p acc f =
      (.ok (acc ++ l, f || l.any isMarker), ⟨rest.head?, rest.tail, s.term⟩) := by
  induction l generalizing s acc f with
  | nil =>
    simp only [List.nil_append] at heff
    rcases hrest with ⟨hre, hterm⟩ | ⟨b, r', hre, hb⟩
    · subst hre
      obtain ⟨pr, input, term⟩ := s
      cases pr with
      | some c => simp [eff] at heff
      | none =>
        simp only [eff, List.nil_append] at heff
        subst heff
        simp only at hterm
        subst hterm
        rw [scanNumber_nil (by simp [eff])]
        simp
    · subst hre
      rw [scanNumber_cons heff]
      obtain ⟨hcond, hm⟩ := undo_cond_true hb
      rw [marker_cond, hm]
      simp only [Bool.false_eq_true, if_false]
      rw [if_pos hcond]
      simp [undo]
  | cons b l' ih =>
    have hb : numClass b = true := hl b (by simp)
    have heff' : eff s = b :: (l' ++ rest) := by simpa using heff
    rw [scanNumber_cons heff']
    have hne : (acc.length == 64) = false := by
      simp only [List.length_cons] at hlen
      simp
      omega
    have hlen' : (acc ++ [b]).length + l'.length ≤ 64 := by
      simp only [List.length_append, List.length_cons, List.length_nil] at hlen ⊢
      omega
    have hrec := ih (fun x hx => hl x (by simp [hx])) ⟨none, l' ++ rest, s.term⟩ (acc ++ [b])
    rw [marker_cond]
    by_cases hm : isMarker b = true
    · rw [hm]
      simp only [if_true, hne, Bool.false_eq_true, if_false]
      rw [hrec true (by simp [eff]) hlen' (by simpa using hrest)]
      simp [List.append_assoc, hm]
    · have hmf : isMarker b = false := by simpa using hm
      rw [hmf]
      simp only [Bool.false_eq_true, if_false]
      rw [undo_cond_false hb hmf]
      simp only [Bool.false_eq_true, if_false, hne]
      rw [hrec f (by simp [eff]) hlen' (by simpa using hrest)]
      simp [List.append_assoc, hmf]

/-- Exceeding the scratch buffer: once 65 scannable bytes are available
the loop reports the "number is too long" resource-limit error, no
matter what the bytes are. -/
theorem scanNumber_tooLong (l : List Nat) (hl : ∀ b ∈ l, numClass b = true)
    (s : ByteState) (p : Pos) (acc : List Nat) (f : Bool) (rest : List Nat)
    (heff : eff s = l ++ rest) (hlen : 65 ≤ acc.length + l.length)
    (hacc : acc.length ≤ 64) :
    ∃ s', scanNumber s p acc f = (.error (errAt p .numberTooLong), s') := by
  induction l generalizing s acc f with
  | nil =>
    simp only [List.length_nil] at hlen
    omega
  | cons b l' ih =>
    have hb : numClass b = true := hl b (by simp)
    have heff' : eff s = b :: (l' ++ rest) := by simpa using heff
    rw [scanNumber_cons heff', marker_cond]
    by_cases hacc64 : acc.length = 64
    · have h64 : (acc.length == 64) = true := by simp [hacc64]
      by_cases hm : isMarker b = true
      · rw [hm]
        simp only [if_true, h64]
        exact ⟨_, rfl⟩
      · have hmf : isMarker b = false := by simpa using hm
        rw [hmf]
        simp only [Bool.false_eq_true, if_false]
        rw [undo_cond_false hb hmf]
        simp only [Bool.false_eq_true, if_false, h64, if_true]
        exact ⟨_, rfl⟩
    · have hne : (acc.length == 64) = false := by simp [hacc64]
      have hlen' : 65 ≤ (acc ++ [b]).length + l'.length := by
        simp only [List.length_append, List.length_cons, List.length_nil] at hlen ⊢
        omega
      have hacc' : (acc ++ [b]).length ≤ 64 := by
        simp only [List.length_append, List.length_cons, List.length_nil]
        omega
      have hrec := ih (fun x hx => hl x (by simp [hx])) ⟨none, l' ++ rest, s.term⟩ (acc ++ [b])
      by_cases hm : isMarker b = true
      · rw [hm]
        simp only [if_true, hne, Bool.false_eq_true, if_false]
        exact hrec true (by simp [eff]) hlen' hacc'
      · have hmf : isMarker b = false := by simpa using hm
        rw [hmf]
        simp only [Bool.false_eq_true, if_false]
        rw [undo_cond_false hb hmf]
        simp only [Bool.false_eq_true, if_false, hne]
        exact hrec f (by simp [eff]) hlen' hacc'

/-- The loop's float flag, from an arbitrary start: the final flag is
the initial flag joined with whether the newly scanned tail contains a
float marker. -/
theorem scanNumberF_flag (fuel : Nat) (s : ByteState) (p : Pos) (acc : List Nat)
    (f : Bool) (l : List Nat) (flag : Bool) (s' : ByteState)
    (h : scanNumberF fuel s p acc f = (.ok (l, flag), s')) :
    ∃ tail, l = acc ++ tail ∧ flag = (f || tail.any isMarker) := by
  induction fuel generalizing s acc f with
  | zero => simp [scanNumberF] at h
  | succ fuel ih =>
    rw [scanNumberF] at h
    rcases hn : next s with ⟨res, s₂⟩
    rw [hn] at h
    cases res with
    | error e =>
      cases e <;> simp_all
    | ok input =>
      simp only at h
      split at h
      · split at h
        · simp at h
        · obtain ⟨tail, h1, h2⟩ := ih _ _ _ h
          refine ⟨input :: tail, by simpa using h1, ?_⟩
          rename_i hmk _
          have : isMarker input = true := hmk
          simp [h2, this]
      · split at h
        · simp only [Prod.mk.injEq, Except.ok.injEq] at h
          exact ⟨[], by simp [← h.1.1], by simp [← h.1.2]⟩
        · split at h
          · simp at h
          · obtain ⟨tail, h1, h2⟩ := ih _ _ _ h
            refine ⟨input :: tail, by simpa using h1, ?_⟩
            rename_i hmk _ _
            have : isMarker input = false := by
              simp only [Bool.not_eq_true] at hmk
              exact hmk
            simp [h2, this]

theorem parseInt64_range (l : List Nat) (i : Int) (h : parseInt64 l = some i) :
    -(2 ^ 63) ≤ i ∧ i ≤ 2 ^ 63 - 1 := by
  rcases l with _ | ⟨b, rest⟩
  · simp [parseInt64] at h
  · simp only [parseInt64] at h
    repeat' split at h
    all_goals simp_all
    all_goals omega

/-! ### Claim theorems -/

/-- Claim C4: on the input bytes of the string
`[false] } 11 2.2 "bar"nulltrue`, repeated calls of the token operation
yield exactly the delimiter `[`, boolean false, delimiter `]`, delimiter
`}`, integer 11, float 2.2, string "bar", null, boolean true, and then
the end-of-input result. -/
theorem c4_token_sequence :
    runN 10 ⟨none,
      [0x5B, 0x66, 0x61, 0x6C, 0x73, 0x65, 0x5D, 0x20, 0x7D, 0x20, 0x31, 0x31,
       0x20, 0x32, 0x2E, 0x32, 0x20, 0x22, 0x62, 0x61, 0x72, 0x22, 0x6E, 0x75,
       0x6C, 0x6C, 0x74, 0x72, 0x75, 0x65], .eof⟩ ⟨1, 1⟩ =
      [.ok (.delim 0x5B), .ok (.boolean false), .ok (.delim 0x5D),
       .ok (.delim 0x7D), .ok (.int 11), .ok (.float (11 / 5 : ℚ)),
       .ok (.str [0x62, 0x61, 0x72]), .ok .null, .ok (.boolean true),
       .error .eof] := by
  with_unfolding_all decide

/-- Claim C2, counterexample: for the source that delivers the bytes of
`"foo` and then fails with the I/O error 7, the token operation does not
surface the error value unchanged — it wraps it in the
"unable to read string" context, so the claim is false as stated for the
token-read of a string token. -/
theorem c2_counterexample :
    (tokenOp ⟨none, [0x22, 0x66, 0x6F, 0x6F], .ioError 7⟩ ⟨1, 1⟩).1 =
      .error (.unableToReadString (.ioError 7)) ∧
    GoError.unableToReadString (.ioError 7) ≠ .ioError 7 := by
  decide

/-- Claim C2, amended: a non-EOF source failure is surfaced with its
error value unchanged by separator skipping, literal matching, number
scanning, and reads or drains of the lazy string reader; the one
exception is the eager token-read of a string token, which returns the
same value wrapped in an "unable to read string" context (still without
position).  In addition, the drain loop never rewrites an I/O-error
value: with the source terminating in `ioError e`, every error it can
report is either exactly that value or a position-wrapped scan error. -/
theorem c2_amended (e : Nat) :
    (tokenOp ⟨none, [0x20, 0x20], .ioError e⟩ ⟨1, 1⟩).1 = .error (.ioError e) ∧
    (tokenOp ⟨none, [0x66, 0x61], .ioError e⟩ ⟨1, 1⟩).1 = .error (.ioError e) ∧
    (tokenOp ⟨none, [0x30], .ioError e⟩ ⟨1, 1⟩).1 = .error (.ioError e) ∧
    (drainAll newStringReader ⟨none, [0x66, 0x6F, 0x6F], .ioError e⟩ ⟨1, 1⟩).1 =
      .error (.ioError e) ∧
    (stringReader.Read newStringReader ⟨none, [], .ioError e⟩ ⟨1, 1⟩ 8).err =
      some (.ioError e) ∧
    (tokenOp ⟨none, [0x22, 0x66, 0x6F, 0x6F], .ioError e⟩ ⟨1, 1⟩).1 =
      .error (.unableToReadString (.ioError e)) ∧
    (∀ r s p acc er, s.term = .ioError e → (drainLoopF (5 * weight s +
        r.outputBuffer.length + 1) r s p acc).1 = .error er →
      er = .ioError e ∨ ∃ l c m, er = .scanError l c m) := by
  refine ⟨rfl, rfl, rfl, rfl, rfl, rfl, ?_⟩
  intro r s p acc er hterm h
  exact drainLoopF_io _ r s p acc e hterm h

/-- Claim C2 amended, witness: the general drain conjunct applied to the
`"foo`-then-failure source. -/
theorem c2_amended_witness :
    (drainLoopF (5 * weight ⟨none, [0x66, 0x6F, 0x6F], .ioError 7⟩ +
        newStringReader.outputBuffer.length + 1) newStringReader
        ⟨none, [0x66, 0x6F, 0x6F], .ioError 7⟩ ⟨1, 1⟩ []).1 = .error (.ioError 7) ∧
    (GoError.ioError 7 = .ioError 7 ∨ ∃ l c m, GoError.ioError 7 = .scanError l c m) := by
  refine ⟨by decide, ?_⟩
  exact (c2_amended 7).2.2.2.2.2.2 newStringReader ⟨none, [0x66, 0x6F, 0x6F], .ioError 7⟩
    ⟨1, 1⟩ [] (.ioError 7) rfl (by decide)

/-- Claim C6: a lazy string reader whose exhausted flag is set (which is
exactly what the closing-quote transition establishes, per the second
conjunct) answers every further read call with count 0, no written
bytes, and the distinguished io.EOF result — never a decode or I/O
error — and leaves both the reader and the decoder state untouched, so
this holds for any number of further calls. -/
theorem c6_exhausted_idempotent (r : stringReader) (s : ByteState) (p : Pos) (cap : Nat) :
    (r.eof = true → stringReader.Read r s p cap = ⟨0, [], some .eof, r, s⟩) ∧
    ((stringReader.Read r s p cap).err = some .eof →
      (stringReader.Read r s p cap).r.eof = true) := by
  constructor
  · intro h
    rw [stringReader.Read, if_pos h]
  · intro h
    by_cases he : r.eof
    · rw [stringReader.Read, if_pos he]
      exact he
    · rw [stringReader.Read, if_neg he] at h ⊢
      exact readLoopF_eof_flag _ _ _ _ _ _ _ h

/-- Claim C6, witness: an exhausted reader at a concrete state. -/
theorem c6_witness :
    stringReader.Read ⟨true, .defaultStep, [], [], 0⟩ ⟨none, [0x61], .eof⟩ ⟨1, 1⟩ 5 =
      ⟨0, [], some .eof, ⟨true, .defaultStep, [], [], 0⟩, ⟨none, [0x61], .eof⟩⟩ :=
  (c6_exhausted_idempotent ⟨true, .defaultStep, [], [], 0⟩ ⟨none, [0x61], .eof⟩
    ⟨1, 1⟩ 5).1 rfl

/-- Claim C10: when a single read call on the lazy string reader ends in
a source-side failure — a verbatim non-EOF I/O error or the mid-string
EOF decode error — the reported byte count is 0 even when decoded bytes
were already copied into the caller's buffer during that same call, so
those bytes are discarded; the final conjunct shows a concrete call
that copies two bytes and still reports count 0 with the error. -/
theorem c10_error_discards_partial_read (r : stringReader) (s : ByteState) (p : Pos)
    (cap : Nat) (x l c : Nat) :
    ((stringReader.Read r s p cap).err = some (.ioError x) →
      (stringReader.Read r s p cap).n = 0) ∧
    ((stringReader.Read r s p cap).err = some (.scanError l c .unexpectedEOFString) →
      (stringReader.Read r s p cap).n = 0) ∧
    (stringReader.Read newStringReader ⟨none, [0x66, 0x6F], .ioError 7⟩ ⟨1, 1⟩ 10 =
      ⟨0, [0x66, 0x6F], some (.ioError 7), newStringReader, ⟨none, [], .ioError 7⟩⟩) := by
  refine ⟨?_, ?_, by decide⟩
  · intro h
    rw [stringReader.Read] at h ⊢
    by_cases he : r.eof
    · rw [if_pos he] at h
      simp at h
    · rw [if_neg he] at h ⊢
      exact readLoopF_err_zero _ _ _ _ _ _ _ x l c (Or.inl h)
  · intro h
    rw [stringReader.Read] at h ⊢
    by_cases he : r.eof
    · rw [if_pos he] at h
      simp at h
    · rw [if_neg he] at h ⊢
      exact readLoopF_err_zero _ _ _ _ _ _ _ x l c (Or.inr h)

/-- Claim C10, witness: the implications applied at the concrete
two-bytes-then-failure source. -/
theorem c10_witness :
    (stringReader.Read newStringReader ⟨none, [0x66, 0x6F], .ioError 7⟩ ⟨1, 1⟩ 10).err =
      some (.ioError 7) ∧
    (stringReader.Read newStringReader ⟨none, [0x66, 0x6F], .ioError 7⟩ ⟨1, 1⟩ 10).n = 0 :=
  ⟨by decide,
   (c10_error_discards_partial_read newStringReader ⟨none, [0x66, 0x6F], .ioError 7⟩
      ⟨1, 1⟩ 10 7 1 1).1 (by decide)⟩

/-- Claim C8: end-of-stream in the middle of a token is a hard decode
error distinct from the clean end-of-input result: (1) the literal
matcher on a source that ends after a proper prefix of the expected
literal tail reports the position-wrapped "unexpected EOF while reading
literal" error; (2) a string-reader read that hits clean end-of-stream
before the closing quote reports the position-wrapped "unexpected EOF
while reading string" error; (3) a stream that ends before any token
yields the distinguished clean end-of-input result io.EOF; (4) no scan
error equals that clean end-of-input value. -/
theorem c8_premature_eof :
    (∀ (expected : List Nat) (k : Nat) (tok : Token) (s : ByteState) (p : Pos),
      s.term = .eof → eff s = expected.take k → k < expected.length →
      ∃ s', expect expected tok s p = (.error (errAt p .unexpectedEOFLiteral), s')) ∧
    (∀ (r : stringReader) (s : ByteState) (p : Pos) (cap : Nat),
      r.eof = false → r.outputBuffer = [] → eff s = [] → s.term = .eof → 1 ≤ cap →
      stringReader.Read r s p cap =
        ⟨0, [], some (errAt p .unexpectedEOFString), r, s⟩) ∧
    (∀ p, tokenOp ⟨none, [], .eof⟩ p = (.error .eof, ⟨none, [], .eof⟩, p)) ∧
    (∀ l c m, GoError.scanError l c m ≠ .eof) := by
  refine ⟨?_, ?_, ?_, ?_⟩
  · intro expected
    induction expected with
    | nil => intro k tok s p _ _ hk; simp at hk
    | cons c ex ih =>
      intro k tok s p hterm heff hk
      cases k with
      | zero =>
        rw [List.take_zero] at heff
        rw [expect_nil heff, hterm]
        exact ⟨s, rfl⟩
      | succ k =>
        rw [List.take_succ_cons] at heff
        rw [expect_cons heff, if_neg (by simp)]
        exact ih k tok ⟨none, ex.take k, s.term⟩ p hterm (by simp [eff]) (by simp at hk; omega)
  · intro r s p cap hr hb heff hterm hcap
    obtain ⟨pr, input, term⟩ := s
    cases pr with
    | some b => simp [eff] at heff
    | none =>
    simp only [eff, List.nil_append] at heff
    subst heff
    simp only at hterm
    subst hterm
    rw [stringReader.Read, if_neg (by simp [hr])]
    have hw : weight (⟨none, [], .eof⟩ : ByteState) = 0 := by simp [weight]
    rw [hw, hb]
    show readLoopF 1 r ⟨none, [], .eof⟩ p cap 0 [] = _
    rw [readLoopF, if_pos (by omega), hb]
    rfl
  · intro p
    have h := skipWhitespace_nil (s := ⟨none, [], .eof⟩) (by simp [eff]) p
    rw [tokenOp, h]
  · intro l c m
    simp

/-- Claim C8, witness: the general parts applied at concrete inputs —
the literal `nul` cut short, a string cut short right after its opening
quote, and the clean-EOF result of the empty stream. -/
theorem c8_witness :
    (∃ s', expect [0x75, 0x6C, 0x6C] .null ⟨none, [0x75, 0x6C], .eof⟩ ⟨1, 2⟩ =
      (.error (errAt ⟨1, 2⟩ .unexpectedEOFLiteral), s')) ∧
    stringReader.Read newStringReader ⟨none, [], .eof⟩ ⟨1, 2⟩ 4 =
      ⟨0, [], some (errAt ⟨1, 2⟩ .unexpectedEOFString), newStringReader, ⟨none, [], .eof⟩⟩ ∧
    tokenOp ⟨none, [], .eof⟩ ⟨1, 1⟩ = (.error .eof, ⟨none, [], .eof⟩, ⟨1, 1⟩) := by
  refine ⟨?_, ?_, ?_⟩
  · exact c8_premature_eof.1 [0x75, 0x6C, 0x6C] 2 .null ⟨none, [0x75, 0x6C], .eof⟩ ⟨1, 2⟩
      rfl (by decide) (by decide)
  · exact c8_premature_eof.2.1 newStringReader ⟨none, [], .eof⟩ ⟨1, 2⟩ 4 rfl rfl
      (by decide) rfl (by decide)
  · exact c8_premature_eof.2.2.1 ⟨1, 1⟩

/-- Claim C3: the number scratch buffer holds 64 bytes: a concrete
64-byte literal (`1.` followed by 62 zeros) decodes successfully; more
generally any 64-byte scannable run completes the scan without the
resource-limit error; and any 65-byte scannable run fails with the
position-wrapped "number is too long" error regardless of what the bytes
are (so independent of numeric validity). -/
theorem c3_scratch_buffer_boundary :
    (readNumber ⟨none, 0x31 :: 0x2E :: List.replicate 62 0x30, .eof⟩ ⟨1, 1⟩ =
      (.ok (.float 1), ⟨none, [], .eof⟩)) ∧
    (∀ (l : List Nat) (s : ByteState) (p : Pos) (rest : List Nat),
      l.length = 64 → (∀ b ∈ l, numClass b = true) → eff s = l ++ rest →
      ((rest = [] ∧ s.term = .eof) ∨ (∃ b r', rest = b :: r' ∧ numClass b = false)) →
      (scanNumber s p [] false).1 = .ok (l, l.any isMarker)) ∧
    (∀ (l : List Nat) (s : ByteState) (p : Pos) (rest : List Nat),
      l.length = 65 → (∀ b ∈ l, numClass b = true) → eff s = l ++ rest →
      ∃ s', readNumber s p = (.error (errAt p .numberTooLong), s')) := by
  refine ⟨by with_unfolding_all decide, ?_, ?_⟩
  · intro l s p rest h64 hcl heff hrest
    rw [scanNumber_run l hcl s p [] false rest heff (by simp [h64]) hrest]
    simp
  · intro l s p rest h65 hcl heff
    obtain ⟨s', hs⟩ := scanNumber_tooLong l hcl s p [] false rest heff (by simp [h65]) (by simp)
    refine ⟨s', ?_⟩
    rw [readNumber, hs]

/-- Claim C3, witness: 64 nines scan cleanly; 65 nines are the
"number is too long" error (also numerically invalid for int64, showing
independence from validity). -/
theorem c3_witness :
    (scanNumber ⟨none, List.replicate 64 0x39, .eof⟩ ⟨1, 1⟩ [] false).1 =
      .ok (List.replicate 64 0x39, (List.replicate 64 0x39).any isMarker) ∧
    ∃ s', readNumber ⟨none, List.replicate 65 0x39, .eof⟩ ⟨1, 1⟩ =
      (.error (errAt ⟨1, 1⟩ .numberTooLong), s') := by
  constructor
  · exact c3_scratch_buffer_boundary.2.1 (List.replicate 64 0x39) _ ⟨1, 1⟩ []
      (by decide) (by decide) (by simp [eff]) (Or.inl ⟨rfl, rfl⟩)
  · exact c3_scratch_buffer_boundary.2.2 (List.replicate 65 0x39) _ ⟨1, 1⟩ []
      (by decide) (by decide) (by simp [eff])

/-- Claim C5: (1) when the number scan completes, its float flag equals
"some `.`/`e`/`E` byte appeared in the scanned run"; (2) the conversion
step is decided by that flag alone — ParseFloat when set, base-10 signed
64-bit ParseInt when not, with either failure reported as a
position-wrapped scan error; (3) ParseInt results always lie in the
signed 64-bit range, and (4) 2^63 (one past the max) is a conversion
error while 2^63 - 1 converts — overflow errors rather than saturates;
(5) a successful token is a Float exactly when the flag (equivalently,
the marker) was present, and an Integer exactly when it was not. -/
theorem c5_float_flag_decides_conversion :
    (∀ (s : ByteState) (p : Pos) (l : List Nat) (flag : Bool) (s₁ : ByteState),
      scanNumber s p [] false = (.ok (l, flag), s₁) → flag = l.any isMarker) ∧
    (∀ (s : ByteState) (p : Pos) (l : List Nat) (flag : Bool) (s₁ : ByteState),
      scanNumber s p [] false = (.ok (l, flag), s₁) →
      readNumber s p =
        (if flag then
          match parseFloat l with
          | some q => (.ok (.float q), s₁)
          | none => (.error (errAt p .failedScanFloat), s₁)
        else
          match parseInt64 l with
          | some i => (.ok (.int i), s₁)
          | none => (.error (errAt p .failedScanInt), s₁))) ∧
    (∀ l i, parseInt64 l = some i → -(2 ^ 63) ≤ i ∧ i ≤ 2 ^ 63 - 1) ∧
    (∀ p : Pos, readNumber ⟨none,
        [0x39, 0x32, 0x32, 0x33, 0x33, 0x37, 0x32, 0x30, 0x33, 0x36, 0x38, 0x35,
         0x34, 0x37, 0x37, 0x35, 0x38, 0x30, 0x38], .eof⟩ p =
      (.error (errAt p .failedScanInt), ⟨none, [], .eof⟩)) ∧
    (∀ p : Pos, readNumber ⟨none,
        [0x39, 0x32, 0x32, 0x33, 0x33, 0x37, 0x32, 0x30, 0x33, 0x36, 0x38, 0x35,
         0x34, 0x37, 0x37, 0x35, 0x38, 0x30, 0x37], .eof⟩ p =
      (.ok (.int 9223372036854775807), ⟨none, [], .eof⟩)) ∧
    (∀ (s : ByteState) (p : Pos) (q : ℚ), (readNumber s p).1 = .ok (.float q) →
      ∃ l s₁, scanNumber s p [] false = (.ok (l, true), s₁) ∧ l.any isMarker = true) ∧
    (∀ (s : ByteState) (p : Pos) (i : Int), (readNumber s p).1 = .ok (.int i) →
      ∃ l s₁, scanNumber s p [] false = (.ok (l, false), s₁) ∧ l.any isMarker = false) := by
  have hflag : ∀ (s : ByteState) (p : Pos) (l : List Nat) (flag : Bool) (s₁ : ByteState),
      scanNumber s p [] false = (.ok (l, flag), s₁) → flag = l.any isMarker := by
    intro s p l flag s₁ h
    rw [scanNumber] at h
    obtain ⟨tail, h1, h2⟩ := scanNumberF_flag _ _ _ _ _ _ _ _ h
    simp only [List.nil_append] at h1
    subst h1
    simpa using h2
  refine ⟨hflag, ?_, parseInt64_range, fun p => rfl, fun p => rfl, ?_, ?_⟩
  · intro s p l flag s₁ h
    simp only [readNumber, h]
  · intro s p q hq
    rcases hsc : scanNumber s p [] false with ⟨res, s₁⟩
    rcases res with e | ⟨l, flag⟩
    · simp only [readNumber, hsc] at hq
      exact Except.noConfusion hq
    · cases flag with
      | false =>
        simp only [readNumber, hsc, Bool.false_eq_true, if_false] at hq
        rcases hp : parseInt64 l with _ | i <;> simp [hp] at hq
      | true =>
        exact ⟨l, s₁, rfl, (hflag s p l true s₁ hsc).symm⟩
  · intro s p i hi
    rcases hsc : scanNumber s p [] false with ⟨res, s₁⟩
    rcases res with e | ⟨l, flag⟩
    · simp only [readNumber, hsc] at hi
      exact Except.noConfusion hi
    · cases flag with
      | true =>
        simp only [readNumber, hsc, if_true] at hi
        rcases hp : parseFloat l with _ | q <;> simp [hp] at hi
      | false =>
        exact ⟨l, s₁, rfl, (hflag s p l false s₁ hsc).symm⟩

/-- Claim C5, witness: the flag characterization applied to the scan of
`1.5`, and the int64 range bound applied to the parse of `5`. -/
theorem c5_witness :
    (true = [0x31, 0x2E, 0x35].any isMarker) ∧
    (-(2 ^ 63) ≤ (5 : Int) ∧ (5 : Int) ≤ 2 ^ 63 - 1) := by
  constructor
  · exact c5_float_flag_decides_conversion.1 ⟨none, [0x31, 0x2E, 0x35], .eof⟩ ⟨1, 1⟩
      [0x31, 0x2E, 0x35] true ⟨none, [], .eof⟩ (by decide)
  · exact c5_float_flag_decides_conversion.2.2.1 [0x35] 5 (by decide)

/-! ### Position-independence of the value part of every operation

`line`/`column` only reach the operations below `skipWhitespace` through
`Decoder.err`, so the successful outcome of each is the same at any
position. -/

theorem next_ok_prepared {s s' : ByteState} {b : Nat} (h : next s = (.ok b, s')) :
    s'.prepared = none := by
  obtain ⟨pr, input, term⟩ := s
  cases pr with
  | some c => simp [next] at h; simp [← h.2]
  | none =>
    cases input with
    | nil => cases term <;> simp [next] at h
    | cons x l => simp [next] at h; simp [← h.2]

theorem skipWhitespaceF_ok (fuel : Nat) (s : ByteState) (p : Pos) {b : Nat}
    {s' : ByteState} {p' : Pos} (h : skipWhitespaceF fuel s p = (.ok b, s', p')) :
    isSep b = false ∧ s'.prepared = none := by
  induction fuel generalizing s p with
  | zero => simp [skipWhitespaceF] at h
  | succ fuel ih =>
    rw [skipWhitespaceF] at h
    rcases hn : next s with ⟨res, s₂⟩
    rw [hn] at h
    cases res with
    | error e => simp at h
    | ok input =>
      simp only at h
      split at h
      · exact ih _ _ h
      · simp only [Prod.mk.injEq, Except.ok.injEq] at h
        obtain ⟨h1, h2, h3⟩ := h
        subst h1 h2
        rename_i hsep
        exact ⟨by simpa using hsep, next_ok_prepared hn⟩

theorem expect_pos {ex : List Nat} {tok t : Token} {s s₂ : ByteState} {p : Pos}
    (h : expect ex tok s p = (.ok t, s₂)) (p' : Pos) :
    expect ex tok s p' = (.ok t, s₂) := by
  induction ex generalizing s with
  | nil => simpa [expect] using h
  | cons c rest ih =>
    rw [expect] at h ⊢
    rcases hn : next s with ⟨res, s₃⟩
    try rw [hn] at h
    try rw [hn]
    cases res with
    | error e => cases e <;> simp at h
    | ok input =>
      simp only at h ⊢
      split at h
      · simp at h
      · rw [if_neg (by assumption)]
        exact ih h

theorem scanNumberF_pos {fuel : Nat} {s s₂ : ByteState} {p : Pos} {acc : List Nat}
    {f : Bool} {v : List Nat × Bool} (h : scanNumberF fuel s p acc f = (.ok v, s₂))
    (p' : Pos) : scanNumberF fuel s p' acc f = (.ok v, s₂) := by
  induction fuel generalizing s acc f with
  | zero => simp [scanNumberF] at h
  | succ fuel ih =>
    rw [scanNumberF] at h ⊢
    rcases hn : next s with ⟨res, s₃⟩
    try rw [hn] at h
    try rw [hn]
    cases res with
    | error e => cases e <;> simpa using h
    | ok input =>
      simp only at h ⊢
      by_cases h1 : (input == 0x2E || input == 0x65 || input == 0x45) = true
      · rw [if_pos h1] at h ⊢
        by_cases h2 : (acc.length == 64) = true
        · rw [if_pos h2] at h
          simp at h
        · rw [if_neg h2] at h ⊢
          exact ih h
      · rw [if_neg h1] at h ⊢
        by_cases h2 : ((input < 0x30 || 0x39 < input) && input ≠ 0x2D) = true
        · rw [if_pos h2] at h ⊢
          exact h
        · rw [if_neg h2] at h ⊢
          by_cases h3 : (acc.length == 64) = true
          · rw [if_pos h3] at h
            simp at h
          · rw [if_neg h3] at h ⊢
            exact ih h

theorem readNumber_pos {s s₂ : ByteState} {p : Pos} {t : Token}
    (h : readNumber s p = (.ok t, s₂)) (p' : Pos) : readNumber s p' = (.ok t, s₂) := by
  rw [readNumber] at h ⊢
  rcases hsc : scanNumber s p [] false with ⟨res, s₁⟩
  rw [hsc] at h
  rcases res with e | ⟨l, flag⟩
  · simp at h
  · have hsc' : scanNumber s p' [] false = (.ok (l, flag), s₁) := by
      rw [scanNumber] at hsc ⊢
      exact scanNumberF_pos hsc p'
    rw [hsc']
    simp only at h ⊢
    split at h
    · rw [if_pos (by assumption)]
      rcases hp : parseFloat l with _ | q
      · try rw [hp] at h
        simp at h
      · try rw [hp] at h
        try rw [hp]
        simp only [Prod.mk.injEq, Except.ok.injEq] at h
        simp [h.1, h.2]
    · rw [if_neg (by assumption)]
      rcases hp : parseInt64 l with _ | i
      · try rw [hp] at h
        simp at h
      · try rw [hp] at h
        try rw [hp]
        simp only [Prod.mk.injEq, Except.ok.injEq] at h
        simp [h.1, h.2]

theorem stepRun_pos_keep {r r' : stringReader} {p : Pos} {i : Nat} {out : StepOut}
    (h : stepRun r p i = (r', out)) (hout : ∀ l c m, out ≠ .fail (.scanError l c m))
    (p' : Pos) : stepRun r p' i = (r', out) := by
  cases hst : r.step <;> simp only [stepRun, hst] at h ⊢
  case defaultStep =>
    split_ifs at h ⊢ <;> exact h
  case escape =>
    split_ifs at h ⊢
    · exact h
    · rcases hm : escMap i with _ | o <;> rw [hm] at h
      · exact absurd (congrArg Prod.snd h).symm (hout p.line p.column _)
      · exact h
  case unicode =>
    split_ifs at h ⊢ <;>
      first
      | exact h
      | exact absurd (congrArg Prod.snd h).symm (hout p.line p.column _)
  case surrogateEscape =>
    split_ifs at h ⊢ <;>
      first
      | exact h
      | exact absurd (congrArg Prod.snd h).symm (hout p.line p.column _)
  case surrogateEscapeU =>
    split_ifs at h ⊢ <;>
      first
      | exact h
      | exact absurd (congrArg Prod.snd h).symm (hout p.line p.column _)

theorem drainLoopF_pos {fuel : Nat} {r r₂ : stringReader} {s s₂ : ByteState} {p : Pos}
    {acc l : List Nat} (h : drainLoopF fuel r s p acc = (.ok l, r₂, s₂)) (p' : Pos) :
    drainLoopF fuel r s p' acc = (.ok l, r₂, s₂) := by
  induction fuel generalizing r s acc with
  | zero => simpa [drainLoopF] using h
  | succ fuel ih =>
    rw [drainLoopF] at h ⊢
    cases hb : r.outputBuffer with
    | cons b rest =>
      try rw [hb] at h
      try rw [hb]
      exact ih h
    | nil =>
      try rw [hb] at h
      try rw [hb]
      rcases hn : next s with ⟨res, s₃⟩
      try rw [hn] at h
      try rw [hn]
      cases res with
      | error e => cases e <;> simp at h
      | ok input =>
        simp only at h ⊢
        rcases hs : stepRun r p input with ⟨r', out⟩
        try rw [hs] at h
        cases out with
        | skip =>
          rw [stepRun_pos_keep hs (by simp) p']
          exact ih h
        | emit o =>
          rw [stepRun_pos_keep hs (by simp) p']
          exact ih h
        | fail e =>
          cases e with
          | eof =>
            rw [stepRun_pos_keep hs (by simp) p']
            simpa using h
          | ioError x => simp at h
          | scanError a c m => simp at h
          | notString => simp at h
          | unableToReadString e2 => simp at h

theorem readString_pos {s s₂ : ByteState} {p : Pos} {t : Token}
    (h : readString s p = (.ok t, s₂)) (p' : Pos) : readString s p' = (.ok t, s₂) := by
  rw [readString] at h ⊢
  rcases hd : drainAll newStringReader s p with ⟨res, r₂, s₃⟩
  rw [hd] at h
  rcases res with e | l
  · simp at h
  · have hd' : drainAll newStringReader s p' = (.ok l, r₂, s₃) := by
      rw [drainAll] at hd ⊢
      simp only [newStringReader] at hd ⊢
      rw [drainGo] at hd ⊢
      exact drainLoopF_pos hd p'
    rw [hd']
    simpa using h

theorem readToken_pos {b : Nat} {s s₂ : ByteState} {p : Pos} {t : Token}
    (h : readToken b s p = (.ok t, s₂)) (p' : Pos) : readToken b s p' = (.ok t, s₂) := by
  rw [readToken] at h ⊢
  split_ifs at h ⊢
  · exact h
  · exact readString_pos h p'
  · exact expect_pos h p'
  · exact expect_pos h p'
  · exact expect_pos h p'
  · exact readNumber_pos h p'
  · simp at h

/-- Claim C9: when `StringReader` is called and the next significant
byte is not a quote, it returns the distinguished typed `ErrNotString`
(not a position-wrapped scan error), pushes that byte back, and leaves
the decoder usable: a subsequent `Token` call returns exactly the token
(and final byte state) that it would have returned had the probe never
been made. -/
theorem c9_not_string_probe_harmless (s : ByteState) (p : Pos) (b : Nat)
    (s₁ : ByteState) (p₁ : Pos) (t : Token) (s₂ : ByteState) (pOut : Pos)
    (hskip : skipWhitespace s p = (.ok b, s₁, p₁)) (hq : (b == 0x22) = false)
    (htok : tokenOp s p = (.ok t, s₂, pOut)) :
    stringReaderOp s p = (.error .notString, undo b s₁, p₁) ∧
    GoError.notString ≠ errAt p₁ (.badInputByte b) ∧
    ∃ p₃, tokenOp (undo b s₁) p₁ = (.ok t, s₂, p₃) := by
  have hb : b ≠ 0x22 := by simpa using hq
  refine ⟨?_, by simp [errAt], ?_⟩
  · rw [stringReaderOp, hskip]
    simp [hb]
  · have htok' : (match readToken b s₁ p₁ with
        | (.ok t, s'') => (Except.ok t, s'', p₁)
        | (.error e, s'') => (.error e, s'', p₁)) = (.ok t, s₂, pOut) := by
      rw [tokenOp, hskip] at htok
      exact htok
    rcases hrt : readToken b s₁ p₁ with ⟨res, s₃⟩
    rw [hrt] at htok'
    rcases res with e | t'
    · simp at htok'
    · simp only [Prod.mk.injEq, Except.ok.injEq] at htok'
      obtain ⟨h1, h2, h3⟩ := htok'
      subst h1 h2 h3
      obtain ⟨hsep, hprep⟩ := skipWhitespaceF_ok _ _ _ hskip
      have hnext : next (undo b s₁) = (.ok b, s₁) := by
        obtain ⟨pr, input, term⟩ := s₁
        simp only at hprep
        subst hprep
        simp [undo, next]
      refine ⟨advance p₁ b, ?_⟩
      rw [tokenOp, skipWhitespace]
      have hw : weight (undo b s₁) = weight s₁ + 1 := by
        obtain ⟨pr, input, term⟩ := s₁
        simp only at hprep
        subst hprep
        simp [undo, weight]
      rw [hw]
      rw [skipWhitespaceF, hnext]
      simp only [hsep, Bool.false_eq_true, if_false]
      rw [readToken_pos hrt (advance p₁ b)]

/-- Claim C9, witness: probing `false` with the string reader, then
reading the boolean token. -/
theorem c9_witness :
    stringReaderOp ⟨none, [0x66, 0x61, 0x6C, 0x73, 0x65], .eof⟩ ⟨1, 1⟩ =
      (.error .notString, undo 0x66 ⟨none, [0x61, 0x6C, 0x73, 0x65], .eof⟩, ⟨1, 2⟩) ∧
    GoError.notString ≠ errAt ⟨1, 2⟩ (.badInputByte 0x66) ∧
    ∃ p₃, tokenOp (undo 0x66 ⟨none, [0x61, 0x6C, 0x73, 0x65], .eof⟩) ⟨1, 2⟩ =
      (.ok (.boolean false), ⟨none, [], .eof⟩, p₃) :=
  c9_not_string_probe_harmless ⟨none, [0x66, 0x61, 0x6C, 0x73, 0x65], .eof⟩ ⟨1, 1⟩
    0x66 ⟨none, [0x61, 0x6C, 0x73, 0x65], .eof⟩ ⟨1, 2⟩ (.boolean false)
    ⟨none, [], .eof⟩ ⟨1, 2⟩ (by decide) (by decide) (by decide)

/-! ### Bounds for the unicode escape machinery -/

theorem hexVal_lt (b : Nat) : hexVal b < 16 := by
  unfold hexVal
  split_ifs with h1 h2 h3
  · simp at h1
    omega
  · simp at h2
    omega
  · simp at h3
    omega
  · omega

theorem getu4_fold_lt (l : List Nat) (a : Nat) :
    List.foldl (fun a b => a * 16 + hexVal b) a l < (a + 1) * 16 ^ l.length := by
  induction l generalizing a with
  | nil => simp
  | cons b rest ih =>
    simp only [List.foldl_cons, List.length_cons]
    calc List.foldl (fun a b => a * 16 + hexVal b) (a * 16 + hexVal b) rest
        < (a * 16 + hexVal b + 1) * 16 ^ rest.length := ih _
      _ ≤ (a + 1) * 16 ^ (rest.length + 1) := by
          have hv : hexVal b < 16 := hexVal_lt b
          have h1 : a * 16 + hexVal b + 1 ≤ (a + 1) * 16 := by omega
          calc (a * 16 + hexVal b + 1) * 16 ^ rest.length
              ≤ ((a + 1) * 16) * 16 ^ rest.length :=
                Nat.mul_le_mul_right _ h1
            _ = (a + 1) * 16 ^ (rest.length + 1) := by ring

theorem getu4_lt (l : List Nat) (h : l.length ≤ 4) : getu4 l < 0x10000 := by
  have := getu4_fold_lt l 0
  have h2 : 16 ^ l.length ≤ 16 ^ 4 := Nat.pow_le_pow_right (by omega) h
  calc getu4 l < (0 + 1) * 16 ^ l.length := this
    _ = 16 ^ l.length := by ring
    _ ≤ 16 ^ 4 := h2
    _ ≤ 0x10000 := by norm_num

theorem utf8_len_bmp (c : Nat) (hc : c < 0x10000) (hs : utf16IsSurrogate c = false) :
    1 ≤ (utf8EncodeRune c).length ∧ (utf8EncodeRune c).length ≤ 3 := by
  simp only [utf16IsSurrogate, Bool.and_eq_false_iff] at hs
  unfold utf8EncodeRune
  split_ifs <;> simp_all <;> omega

theorem utf8_len_astral (c : Nat) (h1 : 0x10000 ≤ c) (h2 : c ≤ 0x10FFFF) :
    (utf8EncodeRune c).length = 4 := by
  unfold utf8EncodeRune
  split_ifs <;> simp_all <;> omega

theorem utf16DecodeRune_valid (r1 r2 : Nat) (ha : 0xD800 ≤ r1) (hb : r1 < 0xDC00)
    (hc : 0xDC00 ≤ r2) (hd : r2 < 0xE000) :
    0x10000 ≤ utf16DecodeRune r1 r2 ∧ utf16DecodeRune r1 r2 ≤ 0x10FFFF := by
  unfold utf16DecodeRune
  rw [if_pos (by simp_all <;> omega)]
  omega

theorem utf16DecodeRune_invalid (r1 r2 : Nat)
    (h : r1 < 0xD800 ∨ 0xDC00 ≤ r1 ∨ r2 < 0xDC00 ∨ 0xE000 ≤ r2) :
    utf16DecodeRune r1 r2 = 0xFFFD := by
  unfold utf16DecodeRune
  rw [if_neg (by simp <;> omega)]

/-- Claim C1, counterexample: at the fourth hex digit with no pending
surrogate, the code unit 0xDC00 — a LOW surrogate, hence not in the
UTF-16 high-surrogate range — still causes the transition to
SurrogateContinuation: the source tests the whole surrogate range.  And
with the high surrogate 0xD834 pending, the next code unit 0xD834 is not
a low surrogate, yet no "incomplete surrogate pair" error occurs: the
two units are combined by utf16.DecodeRune into the replacement
character U+FFFD and 3 bytes (not 4) are queued. -/
theorem c1_counterexample :
    getu4 [0x44, 0x43, 0x30, 0x30] = 0xDC00 ∧
    isHighSurrogate 0xDC00 = false ∧
    (stepRun ⟨false, .unicode, [0x44, 0x43, 0x30], [], 0⟩ ⟨1, 1⟩ 0x30 =
      (⟨false, .surrogateEscape, [0x44, 0x43, 0x30, 0x30], [], 0xDC00⟩, .skip)) ∧
    getu4 [0x44, 0x38, 0x33, 0x34] = 0xD834 ∧
    isLowSurrogate 0xD834 = false ∧
    (stepRun ⟨false, .unicode, [0x44, 0x38, 0x33], [], 0xD834⟩ ⟨1, 1⟩ 0x34 =
      (⟨false, .defaultStep, [0x44, 0x38, 0x33, 0x34], [0xEF, 0xBF, 0xBD], 0⟩, .skip)) := by
  decide

/-- Claim C1, amended: after the 4th hex digit, with no surrogate
pending, the decoder transitions to SurrogateContinuation when the code
unit lies anywhere in the UTF-16 surrogate range (not only the
high-surrogate half); otherwise it queues that single unit's UTF-8
encoding (1-3 bytes) and returns to Default.  With a surrogate pending,
a code unit outside the surrogate range is the "incomplete surrogate
pair" error; a code unit anywhere in the surrogate range is combined
with the pending one by the UTF-16 pair formula: a genuine high+low pair
queues 4 UTF-8 bytes, and any invalid combination queues the 3-byte
encoding of the replacement character U+FFFD. -/
theorem c1_amended (r : stringReader) (p : Pos) (input : Nat)
    (hst : r.step = .unicode) (hmem : r.memory.length = 3) (hhex : hexDigit input = true) :
    (r.surrogate = 0 →
      (utf16IsSurrogate (getu4 (r.memory ++ [input])) = true →
        stepRun r p input =
          ({ r with
              memory := r.memory ++ [input],
              surrogate := getu4 (r.memory ++ [input]),
              step := .surrogateEscape }, .skip)) ∧
      (utf16IsSurrogate (getu4 (r.memory ++ [input])) = false →
        stepRun r p input =
          ({ r with
              memory := r.memory ++ [input],
              outputBuffer := utf8EncodeRune (getu4 (r.memory ++ [input])),
              step := .defaultStep }, .skip) ∧
        1 ≤ (utf8EncodeRune (getu4 (r.memory ++ [input]))).length ∧
        (utf8EncodeRune (getu4 (r.memory ++ [input]))).length ≤ 3)) ∧
    (r.surrogate ≠ 0 →
      (utf16IsSurrogate (getu4 (r.memory ++ [input])) = false →
        stepRun r p input =
          ({ r with memory := r.memory ++ [input] },
            .fail (errAt p .incompleteSurrogatePair))) ∧
      (utf16IsSurrogate (getu4 (r.memory ++ [input])) = true →
        stepRun r p input =
          ({ r with
              memory := r.memory ++ [input],
              outputBuffer :=
                utf8EncodeRune (utf16DecodeRune r.surrogate (getu4 (r.memory ++ [input]))),
              surrogate := 0,
              step := .defaultStep }, .skip) ∧
        (0xD800 ≤ r.surrogate → r.surrogate < 0xDC00 →
          0xDC00 ≤ getu4 (r.memory ++ [input]) →
          (utf8EncodeRune
            (utf16DecodeRune r.surrogate (getu4 (r.memory ++ [input])))).length = 4) ∧
        ((r.surrogate < 0xD800 ∨ 0xDC00 ≤ r.surrogate ∨
            getu4 (r.memory ++ [input]) < 0xDC00) →
          utf8EncodeRune (utf16DecodeRune r.surrogate (getu4 (r.memory ++ [input]))) =
            [0xEF, 0xBF, 0xBD]))) := by
  have hlen : (r.memory ++ [input]).length = 4 := by simp [hmem]
  have hnotlt : ¬((r.memory ++ [input]).length < 4) := by omega
  have hcp : getu4 (r.memory ++ [input]) < 0x10000 := getu4_lt _ (by omega)
  constructor
  · intro hsur
    constructor
    · intro hsg
      simp only [stepRun, hst]
      rw [if_neg (by simp [hhex]), if_neg hnotlt, if_pos (by simp [hsur]), if_pos hsg]
    · intro hsg
      refine ⟨?_, (utf8_len_bmp _ hcp hsg).1, (utf8_len_bmp _ hcp hsg).2⟩
      simp only [stepRun, hst]
      rw [if_neg (by simp [hhex]), if_neg hnotlt, if_pos (by simp [hsur]),
        if_neg (by simp [hsg])]
  · intro hsur
    constructor
    · intro hsg
      simp only [stepRun, hst]
      rw [if_neg (by simp [hhex]), if_neg hnotlt, if_neg (by simp [hsur]),
        if_pos (by simp [hsg])]
    · intro hsg
      have hsg2 : 0xD800 ≤ getu4 (r.memory ++ [input]) ∧
          getu4 (r.memory ++ [input]) < 0xE000 := by
        simpa [utf16IsSurrogate] using hsg
      refine ⟨?_, ?_, ?_⟩
      · simp only [stepRun, hst]
        rw [if_neg (by simp [hhex]), if_neg hnotlt, if_neg (by simp [hsur]),
          if_neg (by simp [hsg])]
      · intro h1 h2 h3
        exact utf8_len_astral _ (utf16DecodeRune_valid _ _ h1 h2 h3 hsg2.2).1
          (utf16DecodeRune_valid _ _ h1 h2 h3 hsg2.2).2
      · intro hinv
        have hval : r.surrogate < 0xD800 ∨ 0xDC00 ≤ r.surrogate ∨
            getu4 (r.memory ++ [input]) < 0xDC00 ∨
            0xE000 ≤ getu4 (r.memory ++ [input]) := by tauto
        rw [utf16DecodeRune_invalid _ _ hval]
        decide

/-- Claim C1 amended, witness: the lone low surrogate 0xDC00 (as in the
counterexample) transitions to SurrogateContinuation under the amended
rule, since it lies in the surrogate range. -/
theorem c1_amended_witness :
    stepRun ⟨false, .unicode, [0x44, 0x43, 0x30], [], 0⟩ ⟨1, 1⟩ 0x30 =
      ({ (⟨false, .unicode, [0x44, 0x43, 0x30], [], 0⟩ : stringReader) with
          memory := [0x44, 0x43, 0x30] ++ [0x30],
          surrogate := getu4 ([0x44, 0x43, 0x30] ++ [0x30]),
          step := .surrogateEscape }, .skip) :=
  ((c1_amended ⟨false, .unicode, [0x44, 0x43, 0x30], [], 0⟩ ⟨1, 1⟩ 0x30 rfl rfl
    (by decide)).1 rfl).1 (by decide)

/-! ### Consumption lemmas for the well-formed-input theorem -/

theorem isSep_not_numClass {b : Nat} (h : isSep b = true) : numClass b = false := by
  simp [isSep] at h
  simp [numClass, isDigit, isMarker]
  omega

theorem skipWhitespace_seps (seps : List Nat) (hs : ∀ x ∈ seps, isSep x = true) :
    ∀ (s : ByteState) (p : Pos) (b : Nat) (rest : List Nat),
    eff s = seps ++ b :: rest → isSep b = false →
    ∃ p', skipWhitespace s p = (.ok b, ⟨none, rest, s.term⟩, p') := by
  induction seps with
  | nil =>
    intro s p b rest heff hb
    rw [skipWhitespace_cons heff, if_neg (by simp [hb])]
    exact ⟨advance p b, rfl⟩
  | cons x seps' ih =>
    intro s p b rest heff hb
    rw [skipWhitespace_cons (by simpa using heff), if_pos (hs x (by simp))]
    exact ih (fun y hy => hs y (by simp [hy])) _ _ b rest (by simp [eff]) hb

theorem skipWhitespace_seps_eof (seps : List Nat) (hs : ∀ x ∈ seps, isSep x = true) :
    ∀ (s : ByteState) (p : Pos), eff s = seps → s.term = .eof →
    ∃ p', skipWhitespace s p = (.error .eof, ⟨none, [], .eof⟩, p') := by
  induction seps with
  | nil =>
    intro s p heff hterm
    rw [skipWhitespace_nil heff, hterm]
    obtain ⟨pr, input, term⟩ := s
    cases pr with
    | some c => simp [eff] at heff
    | none =>
      simp only [eff, List.nil_append] at heff
      subst heff
      simp only at hterm
      subst hterm
      exact ⟨p, rfl⟩
  | cons x seps' ih =>
    intro s p heff hterm
    rw [skipWhitespace_cons (by simpa using heff), if_pos (hs x (by simp))]
    exact ih (fun y hy => hs y (by simp [hy])) _ _ (by simp [eff]) hterm

theorem expect_run (c : Nat) (ex : List Nat) :
    ∀ (tok : Token) (s : ByteState) (p : Pos) (rest : List Nat),
    eff s = (c :: ex) ++ rest →
    expect (c :: ex) tok s p = (.ok tok, ⟨none, rest, s.term⟩) := by
  induction ex generalizing c with
  | nil =>
    intro tok s p rest heff
    rw [expect_cons (by simpa using heff), if_neg (by simp)]
    rw [expect]
  | cons c2 ex' ih =>
    intro tok s p rest heff
    rw [expect_cons (by simpa using heff), if_neg (by simp)]
    exact ih c2 tok _ p rest (by simp [eff])

theorem drainGo_flush_all (l : List Nat) :
    ∀ (r : stringReader) (s : ByteState) (p : Pos) (acc : List Nat),
    r.outputBuffer = l →
    drainGo r s p acc = drainGo { r with outputBuffer := [] } s p (acc ++ l) := by
  induction l with
  | nil =>
    intro r s p acc h
    have : ({ r with outputBuffer := [] } : stringReader) = r := by
      obtain ⟨a, b, c, d, e⟩ := r
      simp only at h
      simp [h]
    rw [this]
    simp
  | cons b rest ih =>
    intro r s p acc h
    rw [drainGo_flush h]
    rw [ih { r with outputBuffer := rest } s p (acc ++ [b]) rfl]
    simp

/-- Feeding hex digits to the `unicode` step while the accumulator stays
short of four: each is stored with no output. -/
theorem drainGo_hexPartial (hs : List Nat) (hhex : ∀ x ∈ hs, hexDigit x = true) :
    ∀ (r : stringReader) (t : Term) (p : Pos) (acc : List Nat) (rest : List Nat),
    r.step = .unicode → r.outputBuffer = [] →
    r.memory.length + hs.length < 4 →
    drainGo r ⟨none, hs ++ rest, t⟩ p acc =
      drainGo { r with memory := r.memory ++ hs } ⟨none, rest, t⟩ p acc := by
  induction hs with
  | nil =>
    intro r t p acc rest _ _ _
    have : ({ r with memory := r.memory ++ [] } : stringReader) = r := by
      obtain ⟨a, b, c, d, e⟩ := r
      simp
    rw [this]
    simp
  | cons x hs' ih =>
    intro r t p acc rest hstep hbuf hlen
    simp only [List.length_cons] at hlen
    simp only [List.cons_append]
    rw [drainGo_step hbuf
      (show eff (⟨none, x :: (hs' ++ rest), t⟩ : ByteState) = x :: (hs' ++ rest) by
        simp [eff]) p acc]
    have hx : hexDigit x = true := hhex x (by simp)
    have hmlt : (r.memory ++ [x]).length < 4 := by
      simp only [List.length_append, List.length_cons, List.length_nil]
      omega
    have hrun : stepRun r p x = ({ r with memory := r.memory ++ [x] }, .skip) := by
      simp only [stepRun, hstep]
      rw [if_neg (by simp [hx]), if_pos hmlt]
    have := ih (fun y hy => hhex y (by simp [hy])) { r with memory := r.memory ++ [x] }
      t p acc rest (by simp [hstep]) (by simp [hbuf])
      (by simp only [List.length_append, List.length_cons, List.length_nil]; omega)
    simp only [hrun]
    rw [this]
    simp [List.append_assoc]

/-- The two bytes `\u` from the Default state put the machine in the
unicode state with a fresh accumulator. -/
theorem drainGo_escU (r : stringReader) (t : Term) (p : Pos) (acc rest : List Nat)
    (hstep : r.step = .defaultStep) (hbuf : r.outputBuffer = []) :
    drainGo r ⟨none, 0x5C :: 0x75 :: rest, t⟩ p acc =
      drainGo { r with step := .unicode, memory := [] } ⟨none, rest, t⟩ p acc := by
  rw [drainGo_step hbuf
    (show eff (⟨none, 0x5C :: 0x75 :: rest, t⟩ : ByteState) = 0x5C :: (0x75 :: rest) by
      simp [eff]) p acc]
  have h1 : stepRun r p 0x5C = ({ r with step := .escape }, .skip) := by
    simp only [stepRun, hstep]
    rw [if_neg (by simp), if_pos (by simp)]
  simp only [h1]
  rw [drainGo_step (by simp [hbuf])
    (show eff (⟨none, 0x75 :: rest, t⟩ : ByteState) = 0x75 :: rest by simp [eff]) p acc]
  have h2 : stepRun { r with step := Step.escape } p 0x75 =
      ({ r with step := .unicode, memory := [] }, .skip) := by
    simp only [stepRun]
    rw [if_pos (by simp)]
  simp only [h2]

/-- The two bytes `\u` from the SurrogateContinuation state likewise
reach the unicode state with a fresh accumulator. -/
theorem drainGo_surrU (r : stringReader) (t : Term) (p : Pos) (acc rest : List Nat)
    (hstep : r.step = .surrogateEscape) (hbuf : r.outputBuffer = []) :
    drainGo r ⟨none, 0x5C :: 0x75 :: rest, t⟩ p acc =
      drainGo { r with step := .unicode, memory := [] } ⟨none, rest, t⟩ p acc := by
  rw [drainGo_step hbuf
    (show eff (⟨none, 0x5C :: 0x75 :: rest, t⟩ : ByteState) = 0x5C :: (0x75 :: rest) by
      simp [eff]) p acc]
  have h1 : stepRun r p 0x5C = ({ r with step := .surrogateEscapeU }, .skip) := by
    simp only [stepRun, hstep]
    rw [if_neg (by simp)]
  simp only [h1]
  rw [drainGo_step (by simp [hbuf])
    (show eff (⟨none, 0x75 :: rest, t⟩ : ByteState) = 0x75 :: rest by simp [eff]) p acc]
  have h2 : stepRun { r with step := Step.surrogateEscapeU } p 0x75 =
      ({ r with step := .unicode, memory := [] }, .skip) := by
    simp only [stepRun]
    rw [if_neg (by simp)]
  simp only [h2]

/-- Four hex digits from the unicode state with a fresh accumulator and
no pending surrogate, whose value is not a surrogate: the unit's UTF-8
bytes are queued and the machine returns to Default. -/
theorem drainGo_hex4_plain (a b c d : Nat) (ha : hexDigit a = true)
    (hb : hexDigit b = true) (hc : hexDigit c = true) (hd : hexDigit d = true)
    (hns : utf16IsSurrogate (getu4 [a, b, c, d]) = false)
    (r : stringReader) (t : Term) (p : Pos) (acc rest : List Nat)
    (hstep : r.step = .unicode) (hbuf : r.outputBuffer = []) (hmem : r.memory = [])
    (hsur : r.surrogate = 0) :
    drainGo r ⟨none, a :: b :: c :: d :: rest, t⟩ p acc =
      drainGo
        { r with
            memory := [a, b, c, d],
            outputBuffer := utf8EncodeRune (getu4 [a, b, c, d]),
            step := .defaultStep }
        ⟨none, rest, t⟩ p acc := by
  have hpart := drainGo_hexPartial [a, b, c] (by simp [ha, hb, hc]) r t p acc (d :: rest)
    hstep hbuf (by simp [hmem])
  simp only [List.cons_append, List.nil_append] at hpart
  rw [hpart]
  rw [drainGo_step (by simp [hbuf])
    (show eff (⟨none, d :: rest, t⟩ : ByteState) = d :: rest by simp [eff]) p acc]
  have hrun : stepRun { r with memory := r.memory ++ [a, b, c] } p d =
      ({ r with
           memory := r.memory ++ [a, b, c] ++ [d],
           outputBuffer := utf8EncodeRune (getu4 (r.memory ++ [a, b, c] ++ [d])),
           step := .defaultStep }, .skip) := by
    simp only [stepRun, hstep]
    rw [if_neg (by simp [hd]), if_neg (by simp [hmem]), if_pos (by simp [hsur]),
      if_neg (by simp [hmem, hns])]
  simp only [hrun]
  simp [hmem]

/-- Four hex digits from the unicode state with a fresh accumulator and
no pending surrogate, whose value IS a surrogate: it is remembered and
the machine moves to SurrogateContinuation. -/
theorem drainGo_hex4_surr (a b c d : Nat) (ha : hexDigit a = true)
    (hb : hexDigit b = true) (hc : hexDigit c = true) (hd : hexDigit d = true)
    (hys : utf16IsSurrogate (getu4 [a, b, c, d]) = true)
    (r : stringReader) (t : Term) (p : Pos) (acc rest : List Nat)
    (hstep : r.step = .unicode) (hbuf : r.outputBuffer = []) (hmem : r.memory = [])
    (hsur : r.surrogate = 0) :
    drainGo r ⟨none, a :: b :: c :: d :: rest, t⟩ p acc =
      drainGo
        { r with
            memory := [a, b, c, d],
            surrogate := getu4 [a, b, c, d],
            step := .surrogateEscape }
        ⟨none, rest, t⟩ p acc := by
  have hpart := drainGo_hexPartial [a, b, c] (by simp [ha, hb, hc]) r t p acc (d :: rest)
    hstep hbuf (by simp [hmem])
  simp only [List.cons_append, List.nil_append] at hpart
  rw [hpart]
  rw [drainGo_step (by simp [hbuf])
    (show eff (⟨none, d :: rest, t⟩ : ByteState) = d :: rest by simp [eff]) p acc]
  have hrun : stepRun { r with memory := r.memory ++ [a, b, c] } p d =
      ({ r with
           memory := r.memory ++ [a, b, c] ++ [d],
           surrogate := getu4 (r.memory ++ [a, b, c] ++ [d]),
           step := .surrogateEscape }, .skip) := by
    simp only [stepRun, hstep]
    rw [if_neg (by simp [hd]), if_neg (by simp [hmem]), if_pos (by simp [hsur]),
      if_pos (by simp [hmem, hys])]
  simp only [hrun]
  simp [hmem]

/-- Four hex digits from the unicode state with a fresh accumulator and
a pending surrogate, whose value is also a surrogate: the two units are
combined with utf16.DecodeRune, the result's UTF-8 bytes are queued, the
pending surrogate is cleared, and the machine returns to Default. -/
theorem drainGo_hex4_combine (a b c d : Nat) (ha : hexDigit a = true)
    (hb : hexDigit b = true) (hc : hexDigit c = true) (hd : hexDigit d = true)
    (hys : utf16IsSurrogate (getu4 [a, b, c, d]) = true)
    (r : stringReader) (t : Term) (p : Pos) (acc rest : List Nat)
    (hstep : r.step = .unicode) (hbuf : r.outputBuffer = []) (hmem : r.memory = [])
    (hsur : r.surrogate ≠ 0) :
    drainGo r ⟨none, a :: b :: c :: d :: rest, t⟩ p acc =
      drainGo
        { r with
            memory := [a, b, c, d],
            outputBuffer := utf8EncodeRune (utf16DecodeRune r.surrogate (getu4 [a, b, c, d])),
            surrogate := 0,
            step := .defaultStep }
        ⟨none, rest, t⟩ p acc := by
  have hpart := drainGo_hexPartial [a, b, c] (by simp [ha, hb, hc]) r t p acc (d :: rest)
    hstep hbuf (by simp [hmem])
  simp only [List.cons_append, List.nil_append] at hpart
  rw [hpart]
  rw [drainGo_step (by simp [hbuf])
    (show eff (⟨none, d :: rest, t⟩ : ByteState) = d :: rest by simp [eff]) p acc]
  have hrun : stepRun { r with memory := r.memory ++ [a, b, c] } p d =
      ({ r with
           memory := r.memory ++ [a, b, c] ++ [d],
           outputBuffer :=
             utf8EncodeRune (utf16DecodeRune r.surrogate (getu4 (r.memory ++ [a, b, c] ++ [d]))),
           surrogate := 0,
           step := .defaultStep }, .skip) := by
    simp only [stepRun, hstep]
    rw [if_neg (by simp [hd]), if_neg (by simp [hmem]), if_neg (by simp [hsur]),
      if_neg (by simp [hmem, hys])]
  simp only [hrun]
  simp [hmem]

/-- One well-formed body item is decoded whole: from a Default state with
empty output queue and no pending surrogate, the machine consumes the
item's rendering, appends its decoded bytes, and is back in such a state. -/
theorem drainGo_item (it : Item) (hv : it.valid) :
    ∀ (r : stringReader) (t : Term) (p : Pos) (acc rest : List Nat),
    r.step = .defaultStep → r.outputBuffer = [] → r.surrogate = 0 →
    ∃ r', drainGo r ⟨none, it.render ++ rest, t⟩ p acc =
        drainGo r' ⟨none, rest, t⟩ p (acc ++ it.decode) ∧
      r'.step = .defaultStep ∧ r'.outputBuffer = [] ∧ r'.surrogate = 0 := by
  cases it with
  | raw b =>
    intro r t p acc rest hstep hbuf hsur
    obtain ⟨hb1, hb2⟩ := hv
    refine ⟨r, ?_, hstep, hbuf, hsur⟩
    simp only [Item.render, Item.decode, List.cons_append, List.nil_append]
    rw [drainGo_step hbuf
      (show eff (⟨none, b :: rest, t⟩ : ByteState) = b :: rest by simp [eff]) p acc]
    have hrun : stepRun r p b = (r, .emit b) := by
      simp only [stepRun, hstep]
      rw [if_neg (by simp [hb1]), if_neg (by simp [hb2])]
    simp only [hrun]
  | esc c =>
    intro r t p acc rest hstep hbuf hsur
    obtain ⟨o, hm⟩ := Option.isSome_iff_exists.mp hv
    have hcu : c ≠ 0x75 := by
      intro h
      subst h
      simp [escMap] at hm
    refine ⟨{ r with step := .defaultStep }, ?_, rfl, by simp [hbuf], by simp [hsur]⟩
    simp only [Item.render, Item.decode, List.cons_append, List.nil_append]
    rw [drainGo_step hbuf
      (show eff (⟨none, 0x5C :: c :: rest, t⟩ : ByteState) = 0x5C :: (c :: rest) by
        simp [eff]) p acc]
    have hone : stepRun r p 0x5C = ({ r with step := .escape }, .skip) := by
      simp only [stepRun, hstep]
      rw [if_neg (by simp), if_pos (by simp)]
    simp only [hone]
    rw [drainGo_step (by simp [hbuf])
      (show eff (⟨none, c :: rest, t⟩ : ByteState) = c :: rest by simp [eff]) p acc]
    have htwo : stepRun { r with step := Step.escape } p c =
        ({ r with step := .defaultStep }, .emit o) := by
      simp only [stepRun]
      rw [if_neg (by simp [hcu]), hm]
    simp only [htwo, hm]
    simp
  | uni hs =>
    intro r t p acc rest hstep hbuf hsur
    obtain ⟨hlen, hhex, hns⟩ := hv
    rcases hs with _ | ⟨a, hs⟩; · simp at hlen
    rcases hs with _ | ⟨b, hs⟩; · simp at hlen
    rcases hs with _ | ⟨c, hs⟩; · simp at hlen
    rcases hs with _ | ⟨d, hs⟩; · simp at hlen
    have hnil : hs = [] := by simpa using hlen
    subst hnil
    refine ⟨{ r with
                memory := [a, b, c, d],
                outputBuffer := [],
                step := .defaultStep }, ?_, rfl, rfl, by simp [hsur]⟩
    simp only [Item.render, Item.decode, List.cons_append, List.nil_append]
    rw [drainGo_escU r t p acc _ hstep hbuf]
    rw [drainGo_hex4_plain a b c d (hhex a (by simp)) (hhex b (by simp))
      (hhex c (by simp)) (hhex d (by simp)) hns _ t p acc rest rfl (by simp [hbuf])
      rfl (by simp [hsur])]
    rw [drainGo_flush_all (utf8EncodeRune (getu4 [a, b, c, d])) _ _ p (acc) rfl]
  | pair h1 h2 =>
    intro r t p acc rest hstep hbuf hsur
    obtain ⟨hl1, hl2, hx1, hx2, hs1, hs2⟩ := hv
    rcases h1 with _ | ⟨a1, h1⟩; · simp at hl1
    rcases h1 with _ | ⟨b1, h1⟩; · simp at hl1
    rcases h1 with _ | ⟨c1, h1⟩; · simp at hl1
    rcases h1 with _ | ⟨d1, h1⟩; · simp at hl1
    have hnil1 : h1 = [] := by simpa using hl1
    subst hnil1
    rcases h2 with _ | ⟨a2, h2⟩; · simp at hl2
    rcases h2 with _ | ⟨b2, h2⟩; · simp at hl2
    rcases h2 with _ | ⟨c2, h2⟩; · simp at hl2
    rcases h2 with _ | ⟨d2, h2⟩; · simp at hl2
    have hnil2 : h2 = [] := by simpa using hl2
    subst hnil2
    refine ⟨{ r with
                memory := [a2, b2, c2, d2],
                outputBuffer := [],
                surrogate := 0,
                step := .defaultStep }, ?_, rfl, rfl, rfl⟩
    simp only [Item.render, Item.decode, List.cons_append, List.append_assoc,
      List.nil_append]
    rw [drainGo_escU r t p acc _ hstep hbuf]
    rw [drainGo_hex4_surr a1 b1 c1 d1 (hx1 a1 (by simp)) (hx1 b1 (by simp))
      (hx1 c1 (by simp)) (hx1 d1 (by simp)) hs1 _ t p acc _ rfl (by simp [hbuf])
      rfl (by simp [hsur])]
    rw [drainGo_surrU _ t p acc _ rfl (by simp [hbuf])]
    have hcp1 : getu4 [a1, b1, c1, d1] ≠ 0 := by
      simp [utf16IsSurrogate] at hs1
      omega
    rw [drainGo_hex4_combine a2 b2 c2 d2 (hx2 a2 (by simp)) (hx2 b2 (by simp))
      (hx2 c2 (by simp)) (hx2 d2 (by simp)) hs2 _ t p acc rest rfl (by simp [hbuf])
      rfl (by simpa using hcp1)]
    rw [drainGo_flush_all
      (utf8EncodeRune (utf16DecodeRune (getu4 [a1, b1, c1, d1]) (getu4 [a2, b2, c2, d2])))
      _ _ p acc (by simp)]

/-- The drain loop only observes the byte cursor through `next`, so a
pushback state and its flattened form behave identically (for a reader
with nothing buffered, which is how the loop is entered). -/
theorem drainGo_eff (r : stringReader) (s : ByteState) (p : Pos) (acc : List Nat)
    (hb : r.outputBuffer = []) :
    drainGo r s p acc = drainGo r ⟨none, eff s, s.term⟩ p acc := by
  cases heff : eff s with
  | nil =>
    conv_lhs => rw [eff_nil heff]
  | cons b rest =>
    rw [drainGo_step hb heff p acc,
      drainGo_step hb
        (show eff (⟨none, b :: rest, s.term⟩ : ByteState) = b :: rest by simp [eff]) p acc]

theorem eff_head_tail (rest : List Nat) (t : Term) :
    eff ⟨rest.head?, rest.tail, t⟩ = rest := by
  cases rest <;> simp [eff]

/-- Draining a well-formed string body and its closing quote consumes it
entirely and appends exactly the decoded bytes. -/
theorem drainGo_body (items : List Item) (hv : ∀ it ∈ items, it.valid) :
    ∀ (r : stringReader) (t : Term) (p : Pos) (acc rest : List Nat),
    r.step = .defaultStep → r.outputBuffer = [] → r.surrogate = 0 →
    ∃ r', drainGo r ⟨none, (items.map Item.render).flatten ++ 0x22 :: rest, t⟩ p acc =
      (.ok (acc ++ (items.map Item.decode).flatten), r', ⟨none, rest, t⟩) := by
  induction items with
  | nil =>
    intro r t p acc rest hstep hbuf hsur
    refine ⟨{ r with eof := true }, ?_⟩
    simp only [List.map_nil, List.flatten_nil, List.nil_append, List.append_nil]
    rw [drainGo_step hbuf
      (show eff (⟨none, 0x22 :: rest, t⟩ : ByteState) = 0x22 :: rest by simp [eff]) p acc]
    have hrun : stepRun r p 0x22 = ({ r with eof := true }, .fail .eof) := by
      simp only [stepRun, hstep]
      rw [if_pos (by simp)]
    simp only [hrun]
  | cons it its ih =>
    intro r t p acc rest hstep hbuf hsur
    obtain ⟨r', heq, hstep', hbuf', hsur'⟩ :=
      drainGo_item it (hv it (by simp)) r t p acc
        ((its.map Item.render).flatten ++ 0x22 :: rest) hstep hbuf hsur
    obtain ⟨r'', heq2⟩ := ih (fun x hx => hv x (by simp [hx])) r' t p
      (acc ++ it.decode) rest hstep' hbuf' hsur'
    refine ⟨r'', ?_⟩
    have hassoc : ((it :: its).map Item.render).flatten ++ 0x22 :: rest =
        it.render ++ ((its.map Item.render).flatten ++ 0x22 :: rest) := by
      simp [List.append_assoc]
    rw [hassoc, heq, heq2]
    simp [List.append_assoc]

/-- `readString` on a well-formed quoted body: the body and closing quote
are consumed and the decoded bytes are the string token's payload. -/
theorem readString_run (items : List Item) (hv : ∀ it ∈ items, it.valid)
    (s : ByteState) (p : Pos) (rest : List Nat)
    (heff : eff s = (items.map Item.render).flatten ++ 0x22 :: rest) :
    readString s p = (.ok (.str (items.map Item.decode).flatten), ⟨none, rest, s.term⟩) := by
  obtain ⟨r', heq⟩ := drainGo_body items hv newStringReader s.term p [] rest rfl rfl rfl
  have hda : drainAll newStringReader s p =
      (.ok ((items.map Item.decode).flatten), r', ⟨none, rest, s.term⟩) := by
    rw [drainAll, if_neg (by simp [newStringReader])]
    rw [drainGo_eff newStringReader s p [] rfl, heff, heq]
    simp
  simp only [readString, hda]

/-- `readToken` on a well-formed token text whose first byte has already
been pulled: the remaining rendered bytes are consumed (up to the number
scanner's one-byte pushback, invisible through `eff`) and the denoted
token is produced. -/
theorem readToken_run (tt : TokenText) (hv : tt.valid) (b0 : Nat) (tl : List Nat)
    (hr : tt.render = b0 :: tl) (s : ByteState) (p : Pos) (rest : List Nat)
    (hpr : s.prepared = none) (heff : eff s = tl ++ rest)
    (hbound : (rest = [] ∧ s.term = .eof) ∨
      (∃ b r', rest = b :: r' ∧ numClass b = false)) :
    ∃ s', readToken b0 s p = (.ok tt.tok, s') ∧ eff s' = rest ∧ s'.term = s.term := by
  cases tt with
  | delim c =>
    simp only [TokenText.render] at hr
    injection hr with h1 h2
    subst h1
    subst h2
    have hc : (c == 0x7B || c == 0x7D || c == 0x5B || c == 0x5D) = true := by
      rcases hv with h | h | h | h <;> subst h <;> rfl
    refine ⟨s, ?_, by simpa using heff, rfl⟩
    rw [readToken, if_pos hc]
    simp only [TokenText.tok]
  | tru =>
    simp only [TokenText.render] at hr
    injection hr with h1 h2
    subst h1
    subst h2
    refine ⟨⟨none, rest, s.term⟩, ?_, by simp [eff], rfl⟩
    rw [readToken, if_neg (by decide), if_neg (by decide), if_pos (by decide)]
    simp only [TokenText.tok]
    exact expect_run 0x72 [0x75, 0x65] (.boolean true) s p rest (by simpa using heff)
  | fals =>
    simp only [TokenText.render] at hr
    injection hr with h1 h2
    subst h1
    subst h2
    refine ⟨⟨none, rest, s.term⟩, ?_, by simp [eff], rfl⟩
    rw [readToken, if_neg (by decide), if_neg (by decide), if_neg (by decide),
      if_pos (by decide)]
    simp only [TokenText.tok]
    exact expect_run 0x61 [0x6C, 0x73, 0x65] (.boolean false) s p rest (by simpa using heff)
  | nul =>
    simp only [TokenText.render] at hr
    injection hr with h1 h2
    subst h1
    subst h2
    refine ⟨⟨none, rest, s.term⟩, ?_, by simp [eff], rfl⟩
    rw [readToken, if_neg (by decide), if_neg (by decide), if_neg (by decide),
      if_neg (by decide), if_pos (by decide)]
    simp only [TokenText.tok]
    exact expect_run 0x75 [0x6C, 0x6C] .null s p rest (by simpa using heff)
  | num bs =>
    obtain ⟨⟨c0, ctl, hbs, hc0⟩, hall, hlen, hconv⟩ := hv
    subst hbs
    simp only [TokenText.render] at hr
    injection hr with h1 h2
    subst h1
    subst h2
    have hd : c0 = 0x2D ∨ c0 = 0x2E ∨ (0x30 ≤ c0 ∧ c0 ≤ 0x39) := by
      rcases hc0 with h | h | h
      · exact .inl h
      · exact .inr (.inl h)
      · refine .inr (.inr ?_)
        simpa [isDigit] using h
    have hnd : ¬((c0 == 0x7B || c0 == 0x7D || c0 == 0x5B || c0 == 0x5D) = true) := by
      simp only [beq_iff_eq, Bool.or_eq_true]
      rcases hd with h | h | h <;> omega
    have hnq : ¬((c0 == 0x22) = true) := by
      simp only [beq_iff_eq]
      rcases hd with h | h | h <;> omega
    have hnt : ¬((c0 == 0x74) = true) := by
      simp only [beq_iff_eq]
      rcases hd with h | h | h <;> omega
    have hnf : ¬((c0 == 0x66) = true) := by
      simp only [beq_iff_eq]
      rcases hd with h | h | h <;> omega
    have hnn : ¬((c0 == 0x6E) = true) := by
      simp only [beq_iff_eq]
      rcases hd with h | h | h <;> omega
    have hnum : (c0 == 0x2D || c0 == 0x2E || (0x30 ≤ c0 && c0 ≤ 0x39)) = true := by
      simp only [beq_iff_eq, Bool.or_eq_true, Bool.and_eq_true, decide_eq_true_eq]
      rcases hd with h | h | h
      · exact .inl (.inl h)
      · exact .inl (.inr h)
      · exact .inr h
    have heffu : eff (undo c0 s) = (c0 :: ctl) ++ rest := by
      obtain ⟨pr, input, term⟩ := s
      simp only at hpr
      subst hpr
      simp only [eff, List.nil_append] at heff
      simp [undo, eff, heff]
    have hscan := scanNumber_run (c0 :: ctl) hall (undo c0 s) p [] false rest heffu
      (by simpa using hlen) (by simpa [undo] using hbound)
    refine ⟨⟨rest.head?, rest.tail, s.term⟩, ?_, eff_head_tail rest s.term, rfl⟩
    rw [readToken, if_neg hnd, if_neg hnq, if_neg hnt, if_neg hnf, if_neg hnn,
      if_pos hnum]
    rw [readNumber, hscan]
    simp only [List.nil_append, Bool.false_or]
    cases hm : (c0 :: ctl).any isMarker with
    | true =>
      rw [hm] at hconv
      simp only [if_true] at hconv
      obtain ⟨q, hq⟩ := Option.isSome_iff_exists.mp hconv
      simp [TokenText.tok, hm, hq, undo]
    | false =>
      rw [hm] at hconv
      simp only [Bool.false_eq_true, if_false] at hconv
      obtain ⟨i, hi⟩ := Option.isSome_iff_exists.mp hconv
      simp [TokenText.tok, hm, hi, undo]
  | str items =>
    simp only [TokenText.render] at hr
    injection hr with h1 h2
    subst h1
    subst h2
    refine ⟨⟨none, rest, s.term⟩, ?_, by simp [eff], rfl⟩
    rw [readToken, if_neg (by decide), if_pos (by decide)]
    simp only [TokenText.tok]
    refine readString_run items hv s p rest ?_
    rw [heff, List.append_assoc]
    rfl

/-- One `Decoder.Token` call on a separator run followed by a well-formed
token text: the separators and the token's bytes are consumed and the
denoted token is returned. -/
theorem tokenOp_run (seps : List Nat) (hs : ∀ x ∈ seps, isSep x = true)
    (tt : TokenText) (hv : tt.valid) (s : ByteState) (p : Pos) (rest : List Nat)
    (heff : eff s = seps ++ (tt.render ++ rest))
    (hbound : (rest = [] ∧ s.term = .eof) ∨
      (∃ b r', rest = b :: r' ∧ numClass b = false)) :
    ∃ s' p', tokenOp s p = (.ok tt.tok, s', p') ∧ eff s' = rest ∧ s'.term = s.term := by
  obtain ⟨b0, tl, hr, hsep0⟩ : ∃ b0 tl, tt.render = b0 :: tl ∧ isSep b0 = false := by
    cases tt with
    | delim c =>
      rcases hv with h | h | h | h <;> subst h <;> exact ⟨_, _, rfl, rfl⟩
    | tru => exact ⟨_, _, rfl, rfl⟩
    | fals => exact ⟨_, _, rfl, rfl⟩
    | nul => exact ⟨_, _, rfl, rfl⟩
    | num bs =>
      obtain ⟨⟨c0, ctl, hbs, hc0⟩, _⟩ := hv
      refine ⟨c0, ctl, by simp [TokenText.render, hbs], ?_⟩
      have hd : c0 = 0x2D ∨ c0 = 0x2E ∨ (0x30 ≤ c0 ∧ c0 ≤ 0x39) := by
        rcases hc0 with h | h | h
        · exact .inl h
        · exact .inr (.inl h)
        · exact .inr (.inr (by simpa [isDigit] using h))
      simp only [isSep, Bool.or_eq_false_iff, beq_eq_false_iff_ne, ne_eq]
      rcases hd with h | h | h <;> omega
    | str items => exact ⟨_, _, rfl, rfl⟩
  obtain ⟨p', hskip⟩ := skipWhitespace_seps seps hs s p b0 (tl ++ rest)
    (by rw [heff, hr]; simp) hsep0
  obtain ⟨s'', hrt, heff'', hterm''⟩ := readToken_run tt hv b0 tl hr
    ⟨none, tl ++ rest, s.term⟩ p' rest rfl (by simp [eff]) hbound
  refine ⟨s'', p', ?_, heff'', hterm''⟩
  simp only [tokenOp, hskip, hrt]

/-- Repeated `Decoder.Token` calls over a separator-interleaved rendering
of well-formed token texts: each token in order, then the clean `io.EOF`
result. -/
theorem runN_go (ps : List (List Nat × TokenText))
    (hv : ∀ q ∈ ps, (∀ x ∈ q.1, isSep x = true) ∧ q.2.valid)
    (hne : ∀ q ∈ ps.tail, q.1 ≠ [])
    (last : List Nat) (hlast : ∀ x ∈ last, isSep x = true) :
    ∀ (s : ByteState) (p : Pos), eff s = interleave ps last → s.term = .eof →
    runN (ps.length + 1) s p =
      ps.map (fun q => Except.ok q.2.tok) ++ [Except.error GoError.eof] := by
  induction ps with
  | nil =>
    intro s p heff hterm
    obtain ⟨p', hskip⟩ := skipWhitespace_seps_eof last hlast s p
      (by simpa [interleave] using heff) hterm
    simp [runN, tokenOp, hskip]
  | cons q ps' ih =>
    intro s p heff hterm
    obtain ⟨sep, tt⟩ := q
    have hb : (interleave ps' last = [] ∧ s.term = .eof) ∨
        (∃ b r', interleave ps' last = b :: r' ∧ numClass b = false) := by
      cases ps' with
      | nil =>
        cases hl : last with
        | nil => exact .inl ⟨by simp [interleave, hl], hterm⟩
        | cons b r' =>
          refine .inr ⟨b, r', by simp [interleave, hl], ?_⟩
          exact isSep_not_numClass (hlast b (by simp [hl]))
      | cons q2 ps'' =>
        obtain ⟨sep2, tt2⟩ := q2
        have hne2 : sep2 ≠ [] := hne ⟨sep2, tt2⟩ (by simp)
        cases hs2 : sep2 with
        | nil => exact absurd hs2 hne2
        | cons b r' =>
          refine .inr ⟨b, r' ++ (tt2.render ++ interleave ps'' last),
            by simp [interleave, hs2, List.append_assoc], ?_⟩
          exact isSep_not_numClass ((hv ⟨sep2, tt2⟩ (by simp)).1 b (by simp [hs2]))
    obtain ⟨s', p', htok, heff', hterm'⟩ := tokenOp_run sep
      (hv ⟨sep, tt⟩ (by simp)).1 tt (hv ⟨sep, tt⟩ (by simp)).2 s p
      (interleave ps' last) (by simpa [interleave, List.append_assoc] using heff) hb
    have hrec := ih (fun x hx => hv x (by simp [hx]))
      (fun x hx => hne x (List.mem_of_mem_tail hx)) s' p' heff'
      (hterm'.trans hterm)
    simp only [List.length_cons, List.map_cons, List.cons_append]
    rw [runN, htok]
    simp only
    rw [hrec]

/-- Claim C7: for every well-formed input consisting of valid token texts,
each preceded by an arbitrary run of separator bytes (space, tab, CR, LF,
comma, colon) — runs between consecutive tokens nonempty — and followed by
a trailing separator run before clean end-of-stream, repeated
`Decoder.Token` calls yield exactly the denoted tokens in source order,
regardless of how the separators are arranged, followed by the
distinguished end-of-input result `io.EOF`, which is distinct from every
positioned decode error. -/
theorem c7_separator_invariance (ps : List (List Nat × TokenText)) (last : List Nat)
    (hv : ∀ q ∈ ps, (∀ x ∈ q.1, isSep x = true) ∧ q.2.valid)
    (hne : ∀ q ∈ ps.tail, q.1 ≠ [])
    (hlast : ∀ x ∈ last, isSep x = true) :
    runN (ps.length + 1) ⟨none, interleave ps last, .eof⟩ ⟨1, 1⟩ =
      ps.map (fun q => Except.ok q.2.tok) ++ [Except.error GoError.eof] ∧
    ∀ (p : Pos) (m : Msg), GoError.eof ≠ errAt p m := by
  refine ⟨runN_go ps hv hne last hlast ⟨none, interleave ps last, .eof⟩ ⟨1, 1⟩
    (by simp [eff]) rfl, ?_⟩
  intro p m h
  simp [errAt] at h

theorem c7_witness :
    runN 3 (⟨none,
        interleave [([], TokenText.tru), ([0x2C], TokenText.num [0x31])] [0x20],
        Term.eof⟩ : ByteState) ⟨1, 1⟩ =
      [Except.ok (Token.boolean true), Except.ok (Token.int 1),
        Except.error GoError.eof] ∧
    ∀ (p : Pos) (m : Msg), GoError.eof ≠ errAt p m := by
  have hv : ∀ q ∈ [(([] : List Nat), TokenText.tru), ([0x2C], TokenText.num [0x31])],
      (∀ x ∈ q.1, isSep x = true) ∧ q.2.valid := by
    intro q hq
    simp only [List.mem_cons, List.not_mem_nil, or_false] at hq
    rcases hq with rfl | rfl
    · refine ⟨?_, trivial⟩
      intro x hx
      simp at hx
    · refine ⟨?_, ⟨0x31, [], rfl, Or.inr (Or.inr (by decide))⟩, ?_, by decide, by decide⟩
      · intro x hx
        simp only [List.mem_cons, List.not_mem_nil, or_false] at hx
        subst hx
        decide
      · intro b hb
        simp only [List.mem_cons, List.not_mem_nil, or_false] at hb
        subst hb
        decide
  have hne : ∀ q ∈ ([(([] : List Nat), TokenText.tru),
      ([0x2C], TokenText.num [0x31])]).tail, q.1 ≠ [] := by
    intro q hq
    simp only [List.tail_cons, List.mem_cons, List.not_mem_nil, or_false] at hq
    subst hq
    decide
  have hlast : ∀ x ∈ [0x20], isSep x = true := by
    intro x hx
    simp only [List.mem_cons, List.not_mem_nil, or_false] at hx
    subst hx
    decide
  have h := c7_separator_invariance [([], .tru), ([0x2C], .num [0x31])] [0x20]
    hv hne hlast
  exact ⟨h.1.trans (by decide), h.2⟩

end Jsonstream
